import Mathlib

/-!
Verification of the dynamic segment tree from `src/dst/tree.hpp`.

The C++ class `dst::tree<_tvalue, _tindex, _functor>` is embedded shallowly:

* `dst.node V` models `node*`: either the null pointer or a node holding the
  cached value, the stored `_range` pair, and the two child pointers.  Parent
  pointers are a derived quantity (each recursive call knows its caller's
  range); the one place where the *root's* parent pointer is observable —
  the splice-to-root branch of `_erase`, which does not reset it — is tracked
  by the `rootParentNull` flag of `dst.state`.
* Index type `_tindex` is `Int` (the template requires an integral type),
  value type `_tvalue` is a type parameter `V`, the functor is an explicit
  `f : V → V → V`, and the default-constructed value `_tvalue()` is an
  explicit `e : V`.
* The `while` loops of `_extend` are modeled as fueled tail recursions; the
  public wrappers supply fuel that is provably sufficient on every tree the
  data structure can actually reach (the loops of the C++ code terminate on
  exactly those inputs).
-/

namespace dst

/-- Model of `node*`: a null pointer, or a node with fields `_value`,
`_range = (lo, hi)`, `_left`, `_right` (cf. `tree.hpp` lines 90-121). -/
inductive node (V : Type) : Type where
  | null : node V
  | mk (value : V) (lo hi : Int) (left right : node V) : node V
deriving DecidableEq, Repr

namespace node

/-- Value read `cur->value()`; reading through a null pointer is undefined
behaviour in C++ and never happens on reachable trees, the `e` result for
`null` is an arbitrary total-function filler. -/
def val {V : Type} (e : V) : node V → V
  | .null => e
  | .mk v _ _ _ _ => v

/-- Null test `cur == nullptr`. -/
def isNull {V : Type} : node V → Bool
  | .null => true
  | .mk _ _ _ _ _ => false

/-- Height of the pointer structure (model-side measure used for fuel). -/
def height {V : Type} : node V → Nat
  | .null => 0
  | .mk _ _ _ l r => 1 + max l.height r.height

/-- In-order list of the (index, value) pairs stored at the leaves.  A leaf
is a node with `lo = hi` (tree.hpp's leaf invariant); this is the semantic
contents function of the model, not a C++ function. -/
def toList {V : Type} : node V → List (Int × V)
  | .null => []
  | .mk v lo hi l r => if lo = hi then [(lo, v)] else l.toList ++ r.toList

end node

/-- `mid = range.first + (range.second - range.first) / 2` as computed
throughout `tree.hpp` (C++ integer division; both operands are nonnegative
whenever the expression is evaluated on a reachable tree, where C++
truncation and Lean's `Int` division agree). -/
def midOf (lo hi : Int) : Int := lo + (hi - lo) / 2

/-- The loop `while(resolution > dist) resolution /= 2;` of `_extend`
(line 256), fueled. -/
def resDown (fuel : Nat) (res dist : Int) : Int :=
  match fuel with
  | 0 => res
  | fuel + 1 => if res > dist then resDown fuel (res / 2) dist else res

/-- The loop `while(resolution < dist) resolution *= 2;` of `_extend`
(line 259, left extension), fueled. -/
def resUpLt (fuel : Nat) (res dist : Int) : Int :=
  match fuel with
  | 0 => res
  | fuel + 1 => if res < dist then resUpLt fuel (res * 2) dist else res

/-- The loop `while(resolution <= dist) resolution *= 2;` of `_extend`
(line 266, right extension), fueled. -/
def resUpLe (fuel : Nat) (res dist : Int) : Int :=
  match fuel with
  | 0 => res
  | fuel + 1 => if res ≤ dist then resUpLe fuel (res * 2) dist else res

/-- The `cur->parent() == nullptr` branch of `_extend` (lines 250-268):
manual power-of-two range growth around the current root's range `rg`
towards `index = i`. -/
def growRoot (rg : Int × Int) (i : Int) : Int × Int :=
  let dist : Int := if i < rg.1 then rg.2 - i else i - rg.1
  let res0 : Int := resDown 2 1 dist
  if i < rg.1 then
    let res := resUpLt (dist.toNat + 2) res0 dist
    (rg.2 - res, if rg.1 = rg.2 then rg.2 + res else rg.2)
  else
    let res := resUpLe (dist.toNat + 2) res0 dist
    (rg.1, rg.1 + res)

/-- The `while(true)` bisection loop of `_extend`'s parent branch
(lines 273-289), fueled: shrink the parent's range `rg` until a further
bisection would separate the current node's range `(cl, cr)` from `i`. -/
def shrinkLoop (fuel : Nat) (cl cr i : Int) (rg : Int × Int) : Int × Int :=
  match fuel with
  | 0 => rg
  | fuel + 1 =>
    let mid := midOf rg.1 rg.2
    if i < mid then
      if cl ≥ mid then rg
      else shrinkLoop fuel cl cr i (rg.1, mid)
    else
      if (if cl = cr then cr < mid else cr ≤ mid) then rg
      else shrinkLoop fuel cl cr i (mid, rg.2)

/-- The `cur->parent() != nullptr` branch of `_extend` (lines 270-290):
start from the parent's full range and bisect. -/
def shrinkToFit (cl cr i : Int) (pr : Int × Int) : Int × Int :=
  shrinkLoop ((pr.2 - pr.1).toNat + 1) cl cr i pr

/-- Range computation of `_extend` (lines 244-290).  `pr` is the range of
`cur->parent()` when that pointer is non-null, `(cl, cr) = cur->range()`. -/
def extendRange (pr : Option (Int × Int)) (cl cr i : Int) : Int × Int :=
  match pr with
  | none => growRoot (cl, cr) i
  | some p => shrinkToFit cl cr i p

/-- `tree::_insert` (lines 317-346), fueled because the recursive call on
the freshly extended ancestor (line 337) is not structural.  `pr` is the
range of `cur`'s parent (none at the root).  Returns `none` only on fuel
exhaustion, which on reachable trees never happens with the wrapper's fuel. -/
def insertGo {V : Type} (f : V → V → V) (e : V) :
    Nat → node V → Int → V → Option (Int × Int) → Option (node V)
  | 0, _, _, _, _ => none
  | _ + 1, .null, i, v, _ => some (.mk v i i .null .null)
  | fuel + 1, .mk w lo hi l r, i, v, pr =>
    if lo = hi ∧ lo = i then some (.mk v lo hi l r)
    else if i < lo ∨ i ≥ hi then
      let rg := extendRange pr lo hi i
      let par : node V :=
        if i < lo then .mk e rg.1 rg.2 .null (.mk w lo hi l r)
        else .mk e rg.1 rg.2 (.mk w lo hi l r) .null
      insertGo f e fuel par i v pr
    else
      let mid := midOf lo hi
      if i < mid then
        match insertGo f e fuel l i v (some (lo, hi)) with
        | none => none
        | some l' => some (.mk (f (l'.val e) (r.val e)) lo hi l' r)
      else
        match insertGo f e fuel r i v (some (lo, hi)) with
        | none => none
        | some r' => some (.mk (f (l.val e) (r'.val e)) lo hi l r')

/-- Root-level `_insert` call as performed by `tree::insert` (line 209):
the root has no parent, and `_root` ends up at the returned node. -/
def insertRoot {V : Type} (f : V → V → V) (e : V) (t : node V) (i : Int) (v : V) : node V :=
  (insertGo f e (t.height + 2) t i v none).getD t

/-- `tree::_erase` (lines 348-376).  Purely structural recursion. -/
def eraseGo {V : Type} (f : V → V → V) (e : V) : node V → Int → node V
  | .null, _ => .null
  | .mk _ lo hi l r, i =>
    if lo = hi then .null
    else
      let mid := midOf lo hi
      let l' := if i < mid then eraseGo f e l i else l
      let r' := if i < mid then r else eraseGo f e r i
      if l'.isNull || r'.isNull then (if l'.isNull then r' else l')
      else .mk (f (l'.val e) (r'.val e)) lo hi l' r'

/-- `tree::_query` (lines 378-398). -/
def queryGo {V : Type} (f : V → V → V) (e : V) : node V → Int × Int → V
  | .null, _ => e
  | .mk v lo hi l r, seg =>
    let mid := midOf lo hi
    if seg.1 ≤ lo ∧ hi ≤ seg.2 then v
    else if seg.1 < mid ∧ mid ≤ seg.2 then f (queryGo f e l seg) (queryGo f e r seg)
    else if seg.2 < mid then queryGo f e l seg
    else if mid ≤ seg.1 then queryGo f e r seg
    else e

/-- Whole-tree state: `_root` together with the observable null-ness of the
root node's parent pointer (`true` = the root's `_parent` is `nullptr`). -/
structure state (V : Type) : Type where
  root : node V
  rootParentNull : Bool
deriving DecidableEq, Repr

/-- `tree::tree()` (line 196): empty tree. -/
def state.empty {V : Type} : state V := ⟨.null, true⟩

/-- `tree::insert` (lines 207-210).  A fresh root leaf is constructed with a
null parent; when the root is extended, the new ancestor inherits the old
root's parent pointer (`par->parent() = cur->parent()`, line 297), so the
flag is unchanged; insertion below the root never writes the root's parent. -/
def state.insert {V : Type} (f : V → V → V) (e : V) (s : state V) (i : Int) (v : V) : state V :=
  ⟨insertRoot f e s.root i v, if s.root.isNull then true else s.rootParentNull⟩

/-- `tree::erase` (lines 212-215).  When the root itself is deleted the tree
becomes empty; when the root is spliced out (`_root = child`, line 367) the
promoted child keeps its old parent pointer — which pointed at the deleted
root, hence is *not* null (`child->parent()` is only rewritten in the
non-root branch, line 368). -/
def state.erase {V : Type} (f : V → V → V) (e : V) (s : state V) (i : Int) : state V :=
  match s.root with
  | .null => s
  | .mk _ lo hi l r =>
    if lo = hi then ⟨.null, true⟩
    else
      let mid := midOf lo hi
      let l' := if i < mid then eraseGo f e l i else l
      let r' := if i < mid then r else eraseGo f e r i
      if l'.isNull || r'.isNull then ⟨if l'.isNull then r' else l', false⟩
      else ⟨.mk (f (l'.val e) (r'.val e)) lo hi l' r', s.rootParentNull⟩

/-- `tree::query(start, end)` (lines 217-220). -/
def state.query {V : Type} (f : V → V → V) (e : V) (s : state V) (a b : Int) : V :=
  queryGo f e s.root (a, b)

/-- One public operation of the tree. -/
inductive Op (V : Type) : Type where
  | ins (i : Int) (v : V) : Op V
  | del (i : Int) : Op V
deriving DecidableEq, Repr

/-- Apply one operation. -/
def state.apply {V : Type} (f : V → V → V) (e : V) (s : state V) : Op V → state V
  | .ins i v => s.insert f e i v
  | .del i => s.erase f e i

/-- Run a sequence of public operations from the empty tree. -/
def runOps {V : Type} (f : V → V → V) (e : V) (ops : List (Op V)) : state V :=
  ops.foldl (state.apply f e) state.empty

end dst

namespace dst

/-! ### Reference (specification-side) functions -/

/-- Reference map update: sorted association-list insert with overwrite. -/
def mapInsert {V : Type} : List (Int × V) → Int → V → List (Int × V)
  | [], i, v => [(i, v)]
  | (j, w) :: rest, i, v =>
    if i < j then (i, v) :: (j, w) :: rest
    else if i = j then (i, v) :: rest
    else (j, w) :: mapInsert rest i v

/-- Reference map update: remove the binding of `i` (first occurrence). -/
def mapErase {V : Type} : List (Int × V) → Int → List (Int × V)
  | [], _ => []
  | (j, w) :: rest, i => if i = j then rest else (j, w) :: mapErase rest i

/-- Reference contents after a sequence of operations. -/
def specOf {V : Type} (ops : List (Op V)) : List (Int × V) :=
  ops.foldl (fun m op => match op with
    | .ins i v => mapInsert m i v
    | .del i => mapErase m i) []

/-- An operation sequence is valid when every erase hits a present index
(the spec's precondition for `erase`); `m` is the contents so far. -/
def validFromB {V : Type} (m : List (Int × V)) : List (Op V) → Bool
  | [] => true
  | .ins i v :: rest => validFromB (mapInsert m i v) rest
  | .del i :: rest => (m.map Prod.fst).contains i && validFromB (mapErase m i) rest

/-- Fold of a nonempty list of values, left-to-right; `e` for the empty list. -/
def fold1 {V : Type} (f : V → V → V) (e : V) : List V → V
  | [] => e
  | v :: vs => vs.foldl f v

/-- The specified query result: the `f`-fold, in list order, of the values
stored at the present indices within `[a, b]`. -/
def presentFold {V : Type} (f : V → V → V) (e : V) (m : List (Int × V)) (a b : Int) : V :=
  fold1 f e ((m.filter (fun p => a ≤ p.1 && p.1 ≤ b)).map Prod.snd)

/-- `f` is associative (the spec requires "a user-supplied associative
combining function"). -/
def Assoc {V : Type} (f : V → V → V) : Prop :=
  ∀ a b c : V, f (f a b) c = f a (f b c)

/-- `e` is a left identity for `f` (`combine(identity, x) == x`). -/
def LeftId {V : Type} (f : V → V → V) (e : V) : Prop := ∀ x : V, f e x = x

/-- `e` is a right identity for `f` (`combine(x, identity) == x`). -/
def RightId {V : Type} (f : V → V → V) (e : V) : Prop := ∀ x : V, f x e = x

/-! ### Structural invariants of reachable trees -/

/-- A length is a power of two. -/
def IsPow2 (n : Int) : Prop := ∃ k : Nat, n = 2 ^ k

/-- `Dyad P C`: the interval `C` is a block of the dyadic decomposition of
`P` obtained by repeated bisection at `midOf` (the spec's "bisection
invariant"). -/
inductive Dyad : Int × Int → Int × Int → Prop where
  | refl (a b : Int) : Dyad (a, b) (a, b)
  | left {a b c d : Int} : Dyad (a, midOf a b) (c, d) → Dyad (a, b) (c, d)
  | right {a b c d : Int} : Dyad (midOf a b, b) (c, d) → Dyad (a, b) (c, d)

/-- Exclusive upper end of the set of points a node with range `(lo, hi)`
is responsible for: a leaf `(i, i)` stands for the single point `i`, an
internal range is half-open `[lo, hi)`. -/
def sHi (lo hi : Int) : Int := if lo = hi then lo + 1 else hi

/-- Lower end of a node's span (junk `0` for null, never used there). -/
def node.spanLo {V : Type} : node V → Int
  | .null => 0
  | .mk _ lo _ _ _ => lo

/-- Exclusive upper end of a node's span (junk `0` for null). -/
def node.spanHi {V : Type} : node V → Int
  | .null => 0
  | .mk _ lo hi _ _ => sHi lo hi

/-- What it means for a child pointer `c` to sit correctly in the slot
covering `[a, b)`: its span is inside `[a, b)` and, if it is an internal
node, its range is a dyadic block of `[a, b)`. -/
def ChildOK {V : Type} : node V → Int → Int → Prop
  | .null, _, _ => True
  | .mk _ clo chi _ _, a, b =>
    a ≤ clo ∧ sHi clo chi ≤ b ∧ (clo ≠ chi → clo < chi ∧ Dyad (a, b) (clo, chi))

/-- Well-formedness of a (sub)tree, the invariant holding between public
operations: leaves have equal endpoints and no children; internal nodes
have a power-of-two length, two non-null children placed correctly in the
two bisection halves, and a cached value recomputed by `f`. -/
def WF {V : Type} (f : V → V → V) (e : V) : node V → Prop
  | .null => True
  | .mk v lo hi l r =>
    if lo = hi then l = .null ∧ r = .null
    else IsPow2 (hi - lo) ∧ l ≠ .null ∧ r ≠ .null ∧
      ChildOK l lo (midOf lo hi) ∧ ChildOK r (midOf lo hi) hi ∧
      v = f (l.val e) (r.val e) ∧ WF f e l ∧ WF f e r

end dst

namespace dst

/-! ### Arithmetic helpers -/

theorem two_pow_pos (k : Nat) : (0 : Int) < 2 ^ k := by positivity

theorem two_pow_succ (k : Nat) : (2 : Int) ^ (k + 1) = 2 ^ k * 2 := by
  rw [pow_succ]

theorem two_pow_half (k : Nat) (hk : 1 ≤ k) : (2 : Int) ^ k / 2 = 2 ^ (k - 1) := by
  obtain ⟨k', rfl⟩ : ∃ k', k = k' + 1 := ⟨k - 1, by omega⟩
  rw [two_pow_succ]
  simp

theorem two_pow_lt_iff {j p : Nat} : (2 : Int) ^ j < 2 ^ p ↔ j < p := by
  constructor
  · intro h
    by_contra hc
    exact absurd (pow_le_pow_right₀ (by norm_num) (by omega : p ≤ j)) (not_le.mpr h)
  · intro h
    exact pow_lt_pow_right₀ (by norm_num) h

theorem two_pow_le_iff {j p : Nat} : (2 : Int) ^ j ≤ 2 ^ p ↔ j ≤ p := by
  constructor
  · intro h
    by_contra hc
    exact absurd h (not_le.mpr (two_pow_lt_iff.mpr (by omega)))
  · intro h
    exact pow_le_pow_right₀ (by norm_num) h

theorem midOf_pow2 {lo hi : Int} {k : Nat} (h : hi - lo = 2 ^ k) (hk : 1 ≤ k) :
    midOf lo hi = lo + 2 ^ (k - 1) := by
  unfold midOf
  rw [h, two_pow_half k hk]

/-! ### Dyad lemmas -/

theorem dyad_bounds {P C : Int × Int} (h : Dyad P C) (hab : P.1 ≤ P.2) :
    P.1 ≤ C.1 ∧ C.2 ≤ P.2 := by
  induction h with
  | refl => exact ⟨le_refl _, le_refl _⟩
  | @left a b c d h ih =>
    dsimp only at *
    have hm : a ≤ midOf a b ∧ midOf a b ≤ b := by unfold midOf; omega
    have := ih hm.1
    omega
  | @right a b c d h ih =>
    dsimp only at *
    have hm : a ≤ midOf a b ∧ midOf a b ≤ b := by unfold midOf; omega
    have := ih hm.2
    omega

theorem dyad_trans {A B C : Int × Int} (h1 : Dyad A B) (h2 : Dyad B C) : Dyad A C := by
  induction h1 with
  | refl => exact h2
  | left _ ih => exact Dyad.left (ih h2)
  | right _ ih => exact Dyad.right (ih h2)

theorem dyad_pow2 {P C : Int × Int} (h : Dyad P C) (hp : IsPow2 (P.2 - P.1))
    (hcd : C.1 < C.2) : IsPow2 (C.2 - C.1) := by
  induction h with
  | refl => exact hp
  | @left a b c d h ih =>
    dsimp only at *
    obtain ⟨k, hk⟩ := hp
    rcases Nat.eq_zero_or_pos k with h0 | h1
    · subst h0
      have hm : midOf a b = a := by unfold midOf; omega
      rw [hm] at h
      have := dyad_bounds h (le_refl a)
      dsimp only at this
      omega
    · have hm : midOf a b - a = 2 ^ (k - 1) := by
        have := midOf_pow2 (by omega : b - a = 2 ^ k) h1
        omega
      exact ih ⟨k - 1, by omega⟩ hcd
  | @right a b c d h ih =>
    dsimp only at *
    obtain ⟨k, hk⟩ := hp
    rcases Nat.eq_zero_or_pos k with h0 | h1
    · subst h0
      have hm : b - midOf a b = 1 := by unfold midOf; omega
      exact ih ⟨0, by omega⟩ hcd
    · have hm : b - midOf a b = 2 ^ (k - 1) := by
        have h2 := midOf_pow2 (by omega : b - a = 2 ^ k) h1
        have h3 : (2 : Int) ^ k = 2 ^ (k - 1) * 2 := by
          rw [← two_pow_succ]; congr 1; omega
        omega
      exact ih ⟨k - 1, by omega⟩ hcd

theorem dyad_split {a b c d : Int} (h : Dyad (a, b) (c, d)) (hne : (c, d) ≠ (a, b)) :
    Dyad (a, midOf a b) (c, d) ∨ Dyad (midOf a b, b) (c, d) := by
  cases h with
  | refl => exact absurd rfl hne
  | left h => exact Or.inl h
  | right h => exact Or.inr h

theorem dyad_left_anchor (a : Int) (k j : Nat) (hj : j ≤ k) :
    Dyad (a, a + 2 ^ k) (a, a + 2 ^ j) := by
  induction k with
  | zero =>
    have : j = 0 := by omega
    subst this
    exact Dyad.refl _ _
  | succ k ih =>
    rcases Nat.lt_or_ge j (k + 1) with h | h
    · have hm : midOf a (a + 2 ^ (k + 1)) = a + 2 ^ k := by
        have h1 := midOf_pow2 (by ring_nf : a + 2 ^ (k + 1) - a = 2 ^ (k + 1)) (by omega)
        rw [show k + 1 - 1 = k from rfl] at h1
        exact h1
      exact Dyad.left (by rw [hm]; exact ih (by omega))
    · have : j = k + 1 := by omega
      subst this
      exact Dyad.refl _ _

theorem dyad_right_anchor (b : Int) (k j : Nat) (hj : j ≤ k) :
    Dyad (b - 2 ^ k, b) (b - 2 ^ j, b) := by
  induction k with
  | zero =>
    have : j = 0 := by omega
    subst this
    exact Dyad.refl _ _
  | succ k ih =>
    rcases Nat.lt_or_ge j (k + 1) with h | h
    · have hm : midOf (b - 2 ^ (k + 1)) b = b - 2 ^ k := by
        have h1 := midOf_pow2 (by ring_nf : b - (b - 2 ^ (k + 1)) = 2 ^ (k + 1)) (by omega)
        rw [show k + 1 - 1 = k from rfl] at h1
        have h2 : (2 : Int) ^ (k + 1) = 2 ^ k * 2 := two_pow_succ k
        omega
      exact Dyad.right (by rw [hm]; exact ih (by omega))
    · have : j = k + 1 := by omega
      subst this
      exact Dyad.refl _ _

end dst

namespace dst

/-! ### Basic facts about spans and well-formedness -/

theorem sHi_leaf (a : Int) : sHi a a = a + 1 := by simp [sHi]

theorem sHi_int {a b : Int} (h : a ≠ b) : sHi a b = b := by simp [sHi, h]

theorem val_mk {V : Type} (e v : V) (lo hi : Int) (l r : node V) :
    (node.mk v lo hi l r).val e = v := rfl

theorem spanLo_mk {V : Type} (v : V) (lo hi : Int) (l r : node V) :
    (node.mk v lo hi l r).spanLo = lo := rfl

theorem spanHi_mk {V : Type} (v : V) (lo hi : Int) (l r : node V) :
    (node.mk v lo hi l r).spanHi = sHi lo hi := rfl

theorem wf_null {V : Type} (f : V → V → V) (e : V) : WF f e .null := trivial

theorem wf_leaf {V : Type} (f : V → V → V) (e v : V) (i : Int) :
    WF f e (.mk v i i .null .null) := by
  unfold WF
  simp

theorem wf_leaf_elim {V : Type} {f : V → V → V} {e v : V} {lo : Int} {l r : node V}
    (h : WF f e (.mk v lo lo l r)) : l = .null ∧ r = .null := by
  unfold WF at h
  simpa using h

theorem wf_internal {V : Type} {f : V → V → V} {e : V} {v : V} {lo hi : Int}
    {l r : node V} (h : WF f e (.mk v lo hi l r)) (hne : lo ≠ hi) :
    IsPow2 (hi - lo) ∧ l ≠ .null ∧ r ≠ .null ∧
      ChildOK l lo (midOf lo hi) ∧ ChildOK r (midOf lo hi) hi ∧
      v = f (l.val e) (r.val e) ∧ WF f e l ∧ WF f e r := by
  unfold WF at h
  rwa [if_neg hne] at h

theorem wf_internal_intro {V : Type} {f : V → V → V} {e : V} {v : V} {lo hi : Int}
    {l r : node V} (hne : lo ≠ hi) (hp : IsPow2 (hi - lo)) (hl : l ≠ .null)
    (hr : r ≠ .null) (hcl : ChildOK l lo (midOf lo hi))
    (hcr : ChildOK r (midOf lo hi) hi) (hv : v = f (l.val e) (r.val e))
    (hwl : WF f e l) (hwr : WF f e r) : WF f e (.mk v lo hi l r) := by
  unfold WF
  rw [if_neg hne]
  exact ⟨hp, hl, hr, hcl, hcr, hv, hwl, hwr⟩

theorem lt_sHi {a b : Int} (h : a = b ∨ a < b) : a < sHi a b := by
  unfold sHi
  split <;> omega

theorem childOK_span {V : Type} {t : node V} {a b : Int} (h : ChildOK t a b)
    (hnn : t ≠ .null) : a ≤ t.spanLo ∧ t.spanHi ≤ b ∧ t.spanLo < t.spanHi := by
  cases t with
  | null => exact absurd rfl hnn
  | mk w clo chi cl cr =>
    obtain ⟨h1, h2, h3⟩ := h
    refine ⟨h1, h2, ?_⟩
    rw [spanLo_mk, spanHi_mk]
    rcases eq_or_ne clo chi with hcc | hcc
    · exact lt_sHi (Or.inl hcc)
    · exact lt_sHi (Or.inr (h3 hcc).1)

theorem wf_mid_facts {V : Type} {f : V → V → V} {e : V} {v : V} {lo hi : Int}
    {l r : node V} (h : WF f e (.mk v lo hi l r)) (hne : lo ≠ hi) :
    lo < midOf lo hi ∧ midOf lo hi < hi ∧ 2 ≤ hi - lo := by
  obtain ⟨_, hl, _, hcl, _, _, _, _⟩ := wf_internal h hne
  obtain ⟨h1, h2, h3⟩ := childOK_span hcl hl
  have hlm : lo < midOf lo hi := by omega
  unfold midOf at *
  omega

theorem wf_lo_lt_hi {V : Type} {f : V → V → V} {e : V} {w : V} {lo hi : Int}
    {l r : node V} (hw : WF f e (node.mk w lo hi l r)) (h : lo ≠ hi) : lo < hi :=
  (wf_mid_facts hw h).1.trans (wf_mid_facts hw h).2.1

theorem wf_lo_lt_sHi {V : Type} {f : V → V → V} {e : V} {w : V} {lo hi : Int}
    {l r : node V} (hw : WF f e (node.mk w lo hi l r)) : lo < sHi lo hi := by
  rcases eq_or_ne lo hi with h | h
  · exact lt_sHi (Or.inl h)
  · exact lt_sHi (Or.inr (wf_lo_lt_hi hw h))

theorem wf_keys_bound {V : Type} {f : V → V → V} {e : V} :
    ∀ {t : node V}, WF f e t → ∀ p ∈ t.toList, t.spanLo ≤ p.1 ∧ p.1 < t.spanHi := by
  intro t
  induction t with
  | null => intro _ p hp; simp [node.toList] at hp
  | mk v lo hi l r ihl ihr =>
    intro hw p hp
    rcases eq_or_ne lo hi with heq | hne
    · subst heq
      simp [node.toList] at hp
      rw [hp, spanLo_mk, spanHi_mk, sHi_leaf]
      omega
    · have hm := wf_mid_facts hw hne
      obtain ⟨_, hl, hr, hcl, hcr, _, hwl, hwr⟩ := wf_internal hw hne
      rw [node.toList, if_neg hne] at hp
      rw [spanLo_mk, spanHi_mk, sHi_int hne]
      rcases List.mem_append.mp hp with h | h
      · have := ihl hwl p h
        have hs := childOK_span hcl hl
        omega
      · have := ihr hwr p h
        have hs := childOK_span hcr hr
        omega

theorem wf_toList_ne_nil {V : Type} {f : V → V → V} {e : V} :
    ∀ {t : node V}, WF f e t → t ≠ .null → t.toList ≠ [] := by
  intro t
  induction t with
  | null => intro _ h; exact absurd rfl h
  | mk v lo hi l r ihl ihr =>
    intro hw _
    rcases eq_or_ne lo hi with heq | hne
    · subst heq; simp [node.toList]
    · obtain ⟨_, hl, _, _, _, _, hwl, _⟩ := wf_internal hw hne
      rw [node.toList, if_neg hne]
      have := ihl hwl hl
      intro hc
      exact this (List.append_eq_nil.mp hc).1

theorem wf_toList_sorted {V : Type} {f : V → V → V} {e : V} :
    ∀ {t : node V}, WF f e t →
      t.toList.Pairwise (fun p q : Int × V => p.1 < q.1) := by
  intro t
  induction t with
  | null => intro _; simp [node.toList]
  | mk v lo hi l r ihl ihr =>
    intro hw
    rcases eq_or_ne lo hi with heq | hne
    · subst heq; simp [node.toList]
    · have hm := wf_mid_facts hw hne
      obtain ⟨_, hl, hr, hcl, hcr, _, hwl, hwr⟩ := wf_internal hw hne
      rw [node.toList, if_neg hne]
      rw [List.pairwise_append]
      refine ⟨ihl hwl, ihr hwr, ?_⟩
      intro p hp q hq
      have h1 := wf_keys_bound hwl p hp
      have h2 := wf_keys_bound hwr q hq
      have hs1 := childOK_span hcl hl
      have hs2 := childOK_span hcr hr
      omega

end dst

namespace dst

/-! ### The loops of `_extend` -/

theorem resDown_one {dist : Int} (h : 1 ≤ dist) : resDown 2 1 dist = 1 := by
  unfold resDown
  rw [if_neg (by omega)]

theorem resUpLe_spec : ∀ (fuel : Nat) (res dist : Int), 0 < res → IsPow2 res →
    res / 2 ≤ dist → (dist + 1 - res).toNat < fuel →
    ∃ p : Nat, resUpLe fuel res dist = 2 ^ p ∧ dist < 2 ^ p ∧ (2 : Int) ^ p / 2 ≤ dist := by
  intro fuel
  induction fuel with
  | zero => intro res dist _ _ _ hf; omega
  | succ fuel ih =>
    intro res dist hpos hp2 hhalf hf
    unfold resUpLe
    by_cases hle : res ≤ dist
    · rw [if_pos hle]
      refine ih (res * 2) dist (by omega) ?_ (by omega) (by omega)
      obtain ⟨k, hk⟩ := hp2
      exact ⟨k + 1, by rw [two_pow_succ]; omega⟩
    · rw [if_neg hle]
      obtain ⟨k, hk⟩ := hp2
      exact ⟨k, hk, by omega, by omega⟩

theorem resUpLt_spec : ∀ (fuel : Nat) (res dist : Int), 0 < res → IsPow2 res →
    res / 2 < dist → (dist - res).toNat < fuel →
    ∃ p : Nat, resUpLt fuel res dist = 2 ^ p ∧ dist ≤ 2 ^ p ∧ (2 : Int) ^ p / 2 < dist := by
  intro fuel
  induction fuel with
  | zero => intro res dist _ _ hh hf; omega
  | succ fuel ih =>
    intro res dist hpos hp2 hhalf hf
    unfold resUpLt
    by_cases hlt : res < dist
    · rw [if_pos hlt]
      refine ih (res * 2) dist (by omega) ?_ (by omega) (by omega)
      obtain ⟨k, hk⟩ := hp2
      exact ⟨k + 1, by rw [two_pow_succ]; omega⟩
    · rw [if_neg hlt]
      obtain ⟨k, hk⟩ := hp2
      exact ⟨k, hk, by omega, by omega⟩

/-- Specification of the root-extension branch of `_extend`: the produced
range has power-of-two length, strictly contains the old root's span and
the new index, and puts the old span and the index in opposite bisection
halves (with the old internal range a dyadic block of its half). -/
theorem growRoot_spec {lo hi i : Int}
    (hshape : lo = hi ∨ (lo < hi ∧ IsPow2 (hi - lo)))
    (houts : i < lo ∨ i ≥ hi) (hne : ¬(lo = hi ∧ i = lo)) :
    IsPow2 ((growRoot (lo, hi) i).2 - (growRoot (lo, hi) i).1) ∧
    (growRoot (lo, hi) i).1 ≤ lo ∧ sHi lo hi ≤ (growRoot (lo, hi) i).2 ∧
    (growRoot (lo, hi) i).1 ≤ i ∧ i < (growRoot (lo, hi) i).2 ∧
    (growRoot (lo, hi) i).2 - (growRoot (lo, hi) i).1 > hi - lo ∧
    (i < lo →
      i < midOf (growRoot (lo, hi) i).1 (growRoot (lo, hi) i).2 ∧
      midOf (growRoot (lo, hi) i).1 (growRoot (lo, hi) i).2 ≤ lo ∧
      (lo ≠ hi → Dyad (midOf (growRoot (lo, hi) i).1 (growRoot (lo, hi) i).2,
        (growRoot (lo, hi) i).2) (lo, hi))) ∧
    (¬ i < lo →
      midOf (growRoot (lo, hi) i).1 (growRoot (lo, hi) i).2 ≤ i ∧
      sHi lo hi ≤ midOf (growRoot (lo, hi) i).1 (growRoot (lo, hi) i).2 ∧
      (lo ≠ hi → Dyad ((growRoot (lo, hi) i).1,
        midOf (growRoot (lo, hi) i).1 (growRoot (lo, hi) i).2) (lo, hi))) := by
  by_cases hil : i < lo
  · -- left extension
    have hdist : 1 ≤ hi - i := by rcases hshape with h | h <;> omega
    have hgr : growRoot (lo, hi) i =
        (hi - resUpLt ((hi - i).toNat + 2) 1 (hi - i),
         if lo = hi then hi + resUpLt ((hi - i).toNat + 2) 1 (hi - i) else hi) := by
      unfold growRoot
      dsimp only
      simp only [if_pos hil]
      rw [resDown_one hdist]
    obtain ⟨p, hpe, hple, hphalf⟩ :=
      resUpLt_spec ((hi - i).toNat + 2) 1 (hi - i) (by omega) ⟨0, by norm_num⟩
        (by omega) (by omega)
    rw [hpe] at hgr
    have hp1 : (1 : Int) ≤ 2 ^ p := by have := two_pow_pos p; omega
    rcases eq_or_ne lo hi with heq | hneq
    · -- old root is a leaf
      subst heq
      rw [if_pos rfl] at hgr
      have hlen : (lo + 2 ^ p) - (lo - 2 ^ p) = 2 ^ (p + 1) := by
        rw [two_pow_succ]; omega
      have hmid : midOf (lo - 2 ^ p) (lo + 2 ^ p) = lo := by
        unfold midOf
        rw [show lo + 2 ^ p - (lo - 2 ^ p) = 2 ^ (p + 1) by rw [two_pow_succ]; omega,
          two_pow_half (p + 1) (by omega)]
        simp
      rw [hgr]
      dsimp only
      rw [hmid, sHi_leaf]
      refine ⟨⟨p + 1, hlen⟩, by omega, by omega, by omega, by omega, by omega,
        fun _ => ⟨by omega, by omega, fun hc => absurd rfl hc⟩,
        fun hc => absurd hil hc⟩
    · -- old root is internal
      obtain ⟨hlt, j, hj⟩ : lo < hi ∧ ∃ j : Nat, hi - lo = 2 ^ j := by
        rcases hshape with h | h
        · exact absurd h hneq
        · exact ⟨h.1, h.2⟩
      rw [if_neg hneq] at hgr
      have hdj : (2 : Int) ^ j < hi - i := by omega
      have hjp : j < p := by
        rw [← two_pow_lt_iff]
        omega
      have hp0 : 1 ≤ p := by omega
      have hhalfp : (2 : Int) ^ p / 2 = 2 ^ (p - 1) := two_pow_half p hp0
      have hjp1 : (2 : Int) ^ j ≤ 2 ^ (p - 1) := two_pow_le_iff.mpr (by omega)
      have hmid : midOf (hi - 2 ^ p) hi = hi - 2 ^ (p - 1) := by
        unfold midOf
        have h3 : (2 : Int) ^ p = 2 ^ (p - 1) * 2 := by
          rw [← two_pow_succ]; congr 1; omega
        have : (hi - (hi - 2 ^ p)) / 2 = 2 ^ (p - 1) := by
          rw [show hi - (hi - 2 ^ p) = 2 ^ p by omega, hhalfp]
        omega
      rw [hgr]
      dsimp only
      rw [hmid, sHi_int hneq]
      have hdy : Dyad (hi - 2 ^ (p - 1), hi) (lo, hi) := by
        have := dyad_right_anchor hi (p - 1) j (by omega)
        rw [show hi - 2 ^ j = lo by omega] at this
        exact this
      refine ⟨⟨p, by omega⟩, by omega, by omega, by omega, by omega, by omega,
        fun _ => ⟨by omega, by omega, fun _ => hdy⟩,
        fun hc => absurd hil hc⟩
  · -- right extension
    have hi_ge : i ≥ hi := by
      rcases houts with h | h
      · exact absurd h hil
      · exact h
    have hdist : 1 ≤ i - lo := by
      rcases hshape with h | h
      · subst h
        rcases eq_or_ne i lo with h2 | h2
        · exact absurd ⟨rfl, h2⟩ hne
        · omega
      · omega
    have hgr : growRoot (lo, hi) i = (lo, lo + resUpLe ((i - lo).toNat + 2) 1 (i - lo)) := by
      unfold growRoot
      dsimp only
      simp only [if_neg hil]
      rw [resDown_one hdist]
    obtain ⟨p, hpe, hplt, hphalf⟩ :=
      resUpLe_spec ((i - lo).toNat + 2) 1 (i - lo) (by omega) ⟨0, by norm_num⟩
        (by omega) (by omega)
    rw [hpe] at hgr
    have hp2' : (2 : Int) ≤ 2 ^ p := by
      have h1 := two_pow_pos p
      rcases Nat.eq_zero_or_pos p with h0 | h0
      · subst h0; simp at hplt; omega
      · calc (2 : Int) = 2 ^ 1 := by norm_num
          _ ≤ 2 ^ p := two_pow_le_iff.mpr (by omega)
    have hp0 : 1 ≤ p := by
      by_contra hc
      have : p = 0 := by omega
      subst this
      simp at hp2'
    have hhalfp : (2 : Int) ^ p / 2 = 2 ^ (p - 1) := two_pow_half p hp0
    have hmid : midOf lo (lo + 2 ^ p) = lo + 2 ^ (p - 1) := by
      have := midOf_pow2 (show lo + 2 ^ p - lo = 2 ^ p by omega) hp0
      exact this
    have hp1' : (1 : Int) ≤ 2 ^ (p - 1) := by have := two_pow_pos (p - 1); omega
    rw [hgr]
    dsimp only
    rw [hmid]
    rcases eq_or_ne lo hi with heq | hneq
    · subst heq
      rw [sHi_leaf]
      refine ⟨⟨p, by omega⟩, by omega, by omega, by omega, by omega, by omega,
        fun hc => absurd hc hil,
        fun _ => ⟨by omega, by omega, fun hc => absurd rfl hc⟩⟩
    · obtain ⟨hlt, j, hj⟩ : lo < hi ∧ ∃ j : Nat, hi - lo = 2 ^ j := by
        rcases hshape with h | h
        · exact absurd h hneq
        · exact ⟨h.1, h.2⟩
      have hdj : (2 : Int) ^ j ≤ i - lo := by omega
      have hjp : j < p := by
        rw [← two_pow_lt_iff]
        omega
      have hjp1 : (2 : Int) ^ j ≤ 2 ^ (p - 1) := two_pow_le_iff.mpr (by omega)
      rw [sHi_int hneq]
      have hdy : Dyad (lo, lo + 2 ^ (p - 1)) (lo, hi) := by
        have := dyad_left_anchor lo (p - 1) j (by omega)
        rw [show lo + 2 ^ j = hi by omega] at this
        exact this
      refine ⟨⟨p, by omega⟩, by omega, by omega, by omega, by omega, by omega,
        fun hc => absurd hc hil,
        fun _ => ⟨by omega, by omega, fun _ => hdy⟩⟩

end dst

namespace dst

theorem shrinkLoop_succ (fuel : Nat) (cl cr i a b : Int) :
    shrinkLoop (fuel + 1) cl cr i (a, b) =
      if i < midOf a b then
        if cl ≥ midOf a b then (a, b)
        else shrinkLoop fuel cl cr i (a, midOf a b)
      else
        if (if cl = cr then cr < midOf a b else cr ≤ midOf a b) then (a, b)
        else shrinkLoop fuel cl cr i (midOf a b, b) := rfl

/-- Specification of the parent-shrink branch of `_extend`'s loop: under
the reachable-tree invariants the loop terminates within the given fuel on
a dyadic sub-block of the start range that contains `i`, with the current
node's span and `i` in opposite halves of the result. -/
theorem shrinkLoop_spec : ∀ (fuel : Nat) (cl cr i a b : Int),
    (b - a).toNat < fuel →
    a ≤ i → i < b →
    a ≤ cl → sHi cl cr ≤ b →
    (cl ≠ cr → cl < cr ∧ Dyad (a, b) (cl, cr)) →
    (i < cl ∨ i ≥ sHi cl cr) →
    Dyad (a, b) (shrinkLoop fuel cl cr i (a, b)) ∧
    (shrinkLoop fuel cl cr i (a, b)).1 ≤ i ∧ i < (shrinkLoop fuel cl cr i (a, b)).2 ∧
    (i < midOf (shrinkLoop fuel cl cr i (a, b)).1 (shrinkLoop fuel cl cr i (a, b)).2 →
      midOf (shrinkLoop fuel cl cr i (a, b)).1 (shrinkLoop fuel cl cr i (a, b)).2 ≤ cl ∧
      sHi cl cr ≤ (shrinkLoop fuel cl cr i (a, b)).2) ∧
    (midOf (shrinkLoop fuel cl cr i (a, b)).1 (shrinkLoop fuel cl cr i (a, b)).2 ≤ i →
      (shrinkLoop fuel cl cr i (a, b)).1 ≤ cl ∧
      sHi cl cr ≤ midOf (shrinkLoop fuel cl cr i (a, b)).1 (shrinkLoop fuel cl cr i (a, b)).2) ∧
    (cl ≠ cr → Dyad (shrinkLoop fuel cl cr i (a, b)) (cl, cr)) := by
  intro fuel
  induction fuel with
  | zero => intro cl cr i a b hf _ _ _ _ _ _; omega
  | succ fuel ih =>
    intro cl cr i a b hf hia hib hacl hshb hdy houts
    have hm : midOf a b = a + (b - a) / 2 := rfl
    rw [shrinkLoop_succ]
    by_cases him : i < midOf a b
    · by_cases hbrk : cl ≥ midOf a b
      · -- break: i left of mid, current node right of mid
        rw [if_pos him, if_pos hbrk]
        dsimp only
        refine ⟨Dyad.refl a b, hia, hib, fun _ => ⟨hbrk, hshb⟩,
          fun hc => absurd hc (by omega), fun hc => (hdy hc).2⟩
      · -- continue into the left half
        rw [if_pos him, if_neg hbrk]
        have hsub : sHi cl cr ≤ midOf a b ∧
            (cl ≠ cr → cl < cr ∧ Dyad (a, midOf a b) (cl, cr)) := by
          rcases eq_or_ne cl cr with hcc | hcc
          · subst hcc
            rw [sHi_leaf]
            exact ⟨by omega, fun hc => absurd rfl hc⟩
          · obtain ⟨hlt, hd⟩ := hdy hcc
            rw [sHi_int hcc]
            have hne2 : (cl, cr) ≠ (a, b) := by
              intro h
              rw [Prod.mk.injEq] at h
              rw [sHi_int hcc] at houts
              omega
            rcases dyad_split hd hne2 with h | h
            · have := dyad_bounds h (by rw [hm]; omega)
              dsimp only at this
              exact ⟨this.2, fun _ => ⟨hlt, h⟩⟩
            · have := dyad_bounds h (by rw [hm]; omega)
              dsimp only at this
              omega
        have hfl : (midOf a b - a).toNat < fuel := by omega
        have := ih cl cr i a (midOf a b) hfl hia him hacl hsub.1 hsub.2 houts
        obtain ⟨d1, d2, d3, d4, d5, d6⟩ := this
        exact ⟨Dyad.left d1, d2, d3, d4, d5, d6⟩
    · by_cases hbrk : (if cl = cr then cr < midOf a b else cr ≤ midOf a b)
      · -- break: i right of mid, current node left of mid
        rw [if_neg him, if_pos hbrk]
        dsimp only
        have hsplit : sHi cl cr ≤ midOf a b := by
          rcases eq_or_ne cl cr with hcc | hcc
          · subst hcc
            rw [if_pos rfl] at hbrk
            rw [sHi_leaf]
            omega
          · rw [if_neg hcc] at hbrk
            rw [sHi_int hcc]
            exact hbrk
        refine ⟨Dyad.refl a b, hia, hib, fun hc => absurd hc (by omega),
          fun _ => ⟨hacl, hsplit⟩, fun hc => (hdy hc).2⟩
      · -- continue into the right half
        rw [if_neg him, if_neg hbrk]
        have hsub : midOf a b ≤ cl ∧
            (cl ≠ cr → cl < cr ∧ Dyad (midOf a b, b) (cl, cr)) := by
          rcases eq_or_ne cl cr with hcc | hcc
          · subst hcc
            rw [if_pos rfl] at hbrk
            exact ⟨by omega, fun hc => absurd rfl hc⟩
          · obtain ⟨hlt, hd⟩ := hdy hcc
            rw [if_neg hcc] at hbrk
            have hne2 : (cl, cr) ≠ (a, b) := by
              intro h
              rw [Prod.mk.injEq] at h
              rw [sHi_int hcc] at houts
              omega
            rcases dyad_split hd hne2 with h | h
            · have := dyad_bounds h (by rw [hm]; omega)
              dsimp only at this
              omega
            · have := dyad_bounds h (by rw [hm]; omega)
              dsimp only at this
              exact ⟨this.1, fun _ => ⟨hlt, h⟩⟩
        have hlen : b - midOf a b < b - a := by
          -- the range cannot have length 1 here, else `i` would be inside
          -- the current node's span, contradicting the extension condition
          rcases eq_or_ne cl cr with hcc | hcc
          · subst hcc
            rw [if_pos rfl] at hbrk
            rw [sHi_leaf] at hshb houts
            omega
          · rw [if_neg hcc] at hbrk
            rw [sHi_int hcc] at hshb houts
            have := (hdy hcc).1
            omega
        have hfr : (b - midOf a b).toNat < fuel := by omega
        have := ih cl cr i (midOf a b) b hfr (by omega) hib hsub.1 hshb hsub.2 houts
        obtain ⟨d1, d2, d3, d4, d5, d6⟩ := this
        exact ⟨Dyad.right d1, d2, d3, d4, d5, d6⟩

end dst

namespace dst

/-! ### mapInsert / mapErase list lemmas -/

theorem mapInsert_nil {V : Type} (i : Int) (v : V) : mapInsert [] i v = [(i, v)] := rfl

theorem mapInsert_cons {V : Type} (j : Int) (w : V) (rest : List (Int × V)) (i : Int) (v : V) :
    mapInsert ((j, w) :: rest) i v =
      if i < j then (i, v) :: (j, w) :: rest
      else if i = j then (i, v) :: rest
      else (j, w) :: mapInsert rest i v := rfl

theorem mapInsert_all_gt {V : Type} (i : Int) (v : V) :
    ∀ L : List (Int × V), (∀ p ∈ L, i < p.1) → mapInsert L i v = (i, v) :: L := by
  intro L
  induction L with
  | nil => intro _; rfl
  | cons q rest ih =>
    intro h
    obtain ⟨j, w⟩ := q
    have := h (j, w) (by simp)
    rw [mapInsert_cons, if_pos this]

theorem mapInsert_all_lt {V : Type} (i : Int) (v : V) :
    ∀ L : List (Int × V), (∀ p ∈ L, p.1 < i) → mapInsert L i v = L ++ [(i, v)] := by
  intro L
  induction L with
  | nil => intro _; rfl
  | cons q rest ih =>
    intro h
    obtain ⟨j, w⟩ := q
    have hq := h (j, w) (by simp)
    dsimp only at hq
    rw [mapInsert_cons, if_neg (by omega), if_neg (by omega),
      ih (fun p hp => h p (by simp [hp])), List.cons_append]

theorem mapInsert_append_left {V : Type} (i : Int) (v : V) :
    ∀ (A B : List (Int × V)), (∀ p ∈ B, i < p.1) →
    mapInsert (A ++ B) i v = mapInsert A i v ++ B := by
  intro A
  induction A with
  | nil =>
    intro B hB
    rw [List.nil_append, mapInsert_all_gt i v B hB]
    rfl
  | cons q rest ih =>
    intro B hB
    obtain ⟨j, w⟩ := q
    rw [List.cons_append, mapInsert_cons, mapInsert_cons]
    by_cases h1 : i < j
    · rw [if_pos h1, if_pos h1, List.cons_append, List.cons_append]
    · rw [if_neg h1, if_neg h1]
      by_cases h2 : i = j
      · rw [if_pos h2, if_pos h2, List.cons_append]
      · rw [if_neg h2, if_neg h2, ih B hB, List.cons_append]

theorem mapInsert_append_right {V : Type} (i : Int) (v : V) :
    ∀ (A B : List (Int × V)), (∀ p ∈ A, p.1 < i) →
    mapInsert (A ++ B) i v = A ++ mapInsert B i v := by
  intro A
  induction A with
  | nil => intro B _; rfl
  | cons q rest ih =>
    intro B hA
    obtain ⟨j, w⟩ := q
    have hq := hA (j, w) (by simp)
    dsimp only at hq
    rw [List.cons_append, mapInsert_cons, if_neg (by omega), if_neg (by omega),
      ih B (fun p hp => hA p (by simp [hp])), List.cons_append]

theorem mapInsert_single {V : Type} (i : Int) (w v : V) :
    mapInsert [(i, w)] i v = [(i, v)] := by
  rw [mapInsert_cons, if_neg (by omega), if_pos rfl]

/-! ### Insert recursion: context predicates -/

/-- Facts about the parent range that hold at every recursive `_insert`
call on a reachable tree: the index is inside it, and it is an internal
node's power-of-two range. -/
def PCtx (i : Int) : Option (Int × Int) → Prop
  | none => True
  | some p => p.1 ≤ i ∧ i < p.2 ∧ IsPow2 (p.2 - p.1) ∧ 2 ≤ p.2 - p.1

/-- The subtree passed to a recursive `_insert` call lives in the same
bisection half of the parent's range as the inserted index. -/
def SameSide {V : Type} (t : node V) (i : Int) : Option (Int × Int) → Prop
  | none => True
  | some p =>
    if i < midOf p.1 p.2 then ChildOK t p.1 (midOf p.1 p.2)
    else ChildOK t (midOf p.1 p.2) p.2

end dst

namespace dst

theorem insertGo_succ_null {V : Type} (f : V → V → V) (e : V) (fuel : Nat)
    (i : Int) (v : V) (pr : Option (Int × Int)) :
    insertGo f e (fuel + 1) .null i v pr = some (.mk v i i .null .null) := rfl

theorem insertGo_succ_mk {V : Type} (f : V → V → V) (e : V) (fuel : Nat) (w : V)
    (lo hi : Int) (l r : node V) (i : Int) (v : V) (pr : Option (Int × Int)) :
    insertGo f e (fuel + 1) (.mk w lo hi l r) i v pr =
      if lo = hi ∧ lo = i then some (.mk v lo hi l r)
      else if i < lo ∨ i ≥ hi then
        insertGo f e fuel
          (if i < lo then
            .mk e (extendRange pr lo hi i).1 (extendRange pr lo hi i).2 .null (.mk w lo hi l r)
           else
            .mk e (extendRange pr lo hi i).1 (extendRange pr lo hi i).2 (.mk w lo hi l r) .null)
          i v pr
      else if i < midOf lo hi then
        match insertGo f e fuel l i v (some (lo, hi)) with
        | none => none
        | some l' => some (.mk (f (l'.val e) (r.val e)) lo hi l' r)
      else
        match insertGo f e fuel r i v (some (lo, hi)) with
        | none => none
        | some r' => some (.mk (f (l.val e) (r'.val e)) lo hi l r') := rfl

/-- Combined specification of `_extend` as used by `_insert` on a reachable
tree: the produced range contains `i` and the old node's span in opposite
bisection halves, has power-of-two length, and (below the root) stays a
dyadic block of the half of the parent's range containing `i`. -/
theorem extendRange_spec {V : Type} {f : V → V → V} {e : V} {w : V} {lo hi i : Int}
    {l r : node V} {pr : Option (Int × Int)}
    (hw : WF f e (node.mk w lo hi l r))
    (hout : i < lo ∨ i ≥ hi) (hni : ¬(lo = hi ∧ lo = i))
    (hp : PCtx i pr) (hss : SameSide (node.mk w lo hi l r) i pr) :
    ∃ alo ahi : Int, extendRange pr lo hi i = (alo, ahi) ∧
      alo ≤ i ∧ i < ahi ∧ IsPow2 (ahi - alo) ∧
      (i < lo → i < midOf alo ahi ∧ ChildOK (node.mk w lo hi l r) (midOf alo ahi) ahi) ∧
      (¬ i < lo → midOf alo ahi ≤ i ∧ ChildOK (node.mk w lo hi l r) alo (midOf alo ahi)) ∧
      (∀ p : Int × Int, pr = some p →
        (if i < midOf p.1 p.2
         then p.1 ≤ alo ∧ ahi ≤ midOf p.1 p.2 ∧ Dyad (p.1, midOf p.1 p.2) (alo, ahi)
         else midOf p.1 p.2 ≤ alo ∧ ahi ≤ p.2 ∧ Dyad (midOf p.1 p.2, p.2) (alo, ahi))) := by
  have hshape : lo = hi ∨ (lo < hi ∧ IsPow2 (hi - lo)) := by
    rcases eq_or_ne lo hi with h | h
    · exact Or.inl h
    · exact Or.inr ⟨wf_lo_lt_hi hw h, (wf_internal hw h).1⟩
  have hsHi_out : i < lo ∨ i ≥ sHi lo hi := by
    rcases eq_or_ne lo hi with h | h
    · rcases hout with h1 | h1
      · exact Or.inl h1
      · subst h
        rw [sHi_leaf]
        rcases eq_or_ne i lo with h2 | h2
        · exact absurd ⟨rfl, h2.symm⟩ hni
        · omega
    · rw [sHi_int h]
      exact hout
  match pr with
  | none =>
    have hg := growRoot_spec hshape hout (fun hc => hni ⟨hc.1, hc.2.symm⟩)
    obtain ⟨hpw, hglo, hghi, hgi1, hgi2, _, hL, hR⟩ := hg
    refine ⟨(growRoot (lo, hi) i).1, (growRoot (lo, hi) i).2, Prod.mk.eta.symm,
      hgi1, hgi2, hpw, ?_, ?_, fun p hp2 => by simp at hp2⟩
    · intro hil
      obtain ⟨h1, h2, h3⟩ := hL hil
      refine ⟨h1, ?_⟩
      simp only [ChildOK]
      refine ⟨h2, hghi, fun hcc => ⟨?_, h3 hcc⟩⟩
      rcases hshape with hsh | hsh
      · exact absurd hsh hcc
      · exact hsh.1
    · intro hil
      obtain ⟨h1, h2, h3⟩ := hR hil
      refine ⟨h1, ?_⟩
      simp only [ChildOK]
      refine ⟨by omega, h2, fun hcc => ⟨?_, h3 hcc⟩⟩
      rcases hshape with hsh | hsh
      · exact absurd hsh hcc
      · exact hsh.1
  | some p =>
    obtain ⟨plo, phi⟩ := p
    have hp9 : plo ≤ i ∧ i < phi ∧ IsPow2 (phi - plo) ∧ 2 ≤ phi - plo := hp
    obtain ⟨hp1, hp2, hp3, hp4⟩ := hp9
    have hpm : midOf plo phi = plo + (phi - plo) / 2 := rfl
    have hhalfeq : ∃ k : Nat, phi - plo = 2 ^ k ∧ 1 ≤ k ∧
        midOf plo phi - plo = 2 ^ (k - 1) ∧ phi - midOf plo phi = 2 ^ (k - 1) := by
      obtain ⟨k, hk⟩ := hp3
      have hk1 : 1 ≤ k := by
        by_contra hc
        have : k = 0 := by omega
        subst this
        simp at hk
        omega
      have h1 := midOf_pow2 hk hk1
      have h2 : (2 : Int) ^ k = 2 ^ (k - 1) * 2 := by
        rw [← two_pow_succ]; congr 1; omega
      exact ⟨k, hk, hk1, by omega, by omega⟩
    obtain ⟨k, hk, hk1, hkl, hkr⟩ := hhalfeq
    have hlosHi : lo < sHi lo hi := wf_lo_lt_sHi hw
    simp only [SameSide] at hss
    by_cases him : i < midOf plo phi
    · -- `i` (and the current node) lie in the left half of the parent range
      rw [if_pos him] at hss
      simp only [ChildOK] at hss
      obtain ⟨hc1, hc2, hc3⟩ := hss
      have hfirst : extendRange (some (plo, phi)) lo hi i =
          shrinkLoop ((phi - plo).toNat) lo hi i (plo, midOf plo phi) := by
        show shrinkToFit lo hi i (plo, phi) = _
        unfold shrinkToFit
        rw [shrinkLoop_succ]
        rw [if_pos him, if_neg (by omega)]
      have hspec := shrinkLoop_spec ((phi - plo).toNat) lo hi i plo (midOf plo phi)
        (by omega) hp1 him hc1 hc2 hc3 hsHi_out
      obtain ⟨R1, R2, hRdef⟩ : ∃ R1 R2,
          shrinkLoop ((phi - plo).toNat) lo hi i (plo, midOf plo phi) = (R1, R2) :=
        ⟨_, _, Prod.mk.eta.symm⟩
      rw [hRdef] at hspec hfirst
      obtain ⟨d1, d2, d3, d4, d5, d6⟩ := hspec
      dsimp only at d1 d2 d3 d4 d5 d6
      have hRlt : R1 < R2 := by omega
      have hRpow : IsPow2 (R2 - R1) := dyad_pow2 d1 ⟨k - 1, by dsimp only; omega⟩ hRlt
      have hRns : (lo, hi) ≠ (R1, R2) := by
        intro hc
        rw [Prod.mk.injEq] at hc
        rcases hout with h3 | h3 <;> omega
      refine ⟨R1, R2, hfirst, d2, d3, hRpow, ?_, ?_, ?_⟩
      · -- i < lo: the old node sits in the right half of R
        intro hil
        have himR : i < midOf R1 R2 := by
          by_contra hc
          obtain ⟨e1, e2⟩ := d5 (by omega)
          omega
        obtain ⟨e1, e2⟩ := d4 himR
        refine ⟨himR, ?_⟩
        simp only [ChildOK]
        refine ⟨e1, e2, fun hcc => ⟨wf_lo_lt_hi hw hcc, ?_⟩⟩
        have hs := sHi_int hcc
        rcases dyad_split (d6 hcc) hRns with hsp | hsp
        · have := dyad_bounds hsp (by
            have hmm : midOf R1 R2 = R1 + (R2 - R1) / 2 := rfl
            omega)
          dsimp only at this
          omega
        · exact hsp
      · -- lo ≤ i: the old node sits in the left half of R
        intro hil
        have himR : midOf R1 R2 ≤ i := by
          by_contra hc
          obtain ⟨e1, e2⟩ := d4 (by omega)
          omega
        obtain ⟨e1, e2⟩ := d5 himR
        refine ⟨himR, ?_⟩
        simp only [ChildOK]
        refine ⟨e1, e2, fun hcc => ⟨wf_lo_lt_hi hw hcc, ?_⟩⟩
        have hs := sHi_int hcc
        rcases dyad_split (d6 hcc) hRns with hsp | hsp
        · exact hsp
        · have := dyad_bounds hsp (by
            have hmm : midOf R1 R2 = R1 + (R2 - R1) / 2 := rfl
            omega)
          dsimp only at this
          omega
      · -- the new range is a block of the left half of the parent range
        intro q hq
        obtain ⟨q1, q2⟩ := q
        rw [Option.some.injEq, Prod.mk.injEq] at hq
        obtain ⟨hq1, hq2⟩ := hq
        subst hq1
        subst hq2
        dsimp only
        rw [if_pos him]
        have := dyad_bounds d1 (by omega)
        dsimp only at this
        exact ⟨by omega, by omega, d1⟩
    · -- `i` (and the current node) lie in the right half of the parent range
      rw [if_neg him] at hss
      simp only [ChildOK] at hss
      obtain ⟨hc1, hc2, hc3⟩ := hss
      have hnbrk : ¬ (if lo = hi then hi < midOf plo phi else hi ≤ midOf plo phi) := by
        rcases eq_or_ne lo hi with h | h
        · rw [if_pos h]
          omega
        · rw [if_neg h]
          have := wf_lo_lt_hi hw h
          rw [sHi_int h] at hc2
          omega
      have hfirst : extendRange (some (plo, phi)) lo hi i =
          shrinkLoop ((phi - plo).toNat) lo hi i (midOf plo phi, phi) := by
        show shrinkToFit lo hi i (plo, phi) = _
        unfold shrinkToFit
        rw [shrinkLoop_succ]
        rw [if_neg him, if_neg hnbrk]
      have hspec := shrinkLoop_spec ((phi - plo).toNat) lo hi i (midOf plo phi) phi
        (by omega) (by omega) hp2 hc1 hc2 hc3 hsHi_out
      obtain ⟨R1, R2, hRdef⟩ : ∃ R1 R2,
          shrinkLoop ((phi - plo).toNat) lo hi i (midOf plo phi, phi) = (R1, R2) :=
        ⟨_, _, Prod.mk.eta.symm⟩
      rw [hRdef] at hspec hfirst
      obtain ⟨d1, d2, d3, d4, d5, d6⟩ := hspec
      dsimp only at d1 d2 d3 d4 d5 d6
      have hRlt : R1 < R2 := by omega
      have hRpow : IsPow2 (R2 - R1) := dyad_pow2 d1 ⟨k - 1, by dsimp only; omega⟩ hRlt
      have hRns : (lo, hi) ≠ (R1, R2) := by
        intro hc
        rw [Prod.mk.injEq] at hc
        rcases hout with h3 | h3 <;> omega
      refine ⟨R1, R2, hfirst, d2, d3, hRpow, ?_, ?_, ?_⟩
      · intro hil
        have himR : i < midOf R1 R2 := by
          by_contra hc
          obtain ⟨e1, e2⟩ := d5 (by omega)
          omega
        obtain ⟨e1, e2⟩ := d4 himR
        refine ⟨himR, ?_⟩
        simp only [ChildOK]
        refine ⟨e1, e2, fun hcc => ⟨wf_lo_lt_hi hw hcc, ?_⟩⟩
        have hs := sHi_int hcc
        rcases dyad_split (d6 hcc) hRns with hsp | hsp
        · have := dyad_bounds hsp (by
            have hmm : midOf R1 R2 = R1 + (R2 - R1) / 2 := rfl
            omega)
          dsimp only at this
          omega
        · exact hsp
      · intro hil
        have himR : midOf R1 R2 ≤ i := by
          by_contra hc
          obtain ⟨e1, e2⟩ := d4 (by omega)
          omega
        obtain ⟨e1, e2⟩ := d5 himR
        refine ⟨himR, ?_⟩
        simp only [ChildOK]
        refine ⟨e1, e2, fun hcc => ⟨wf_lo_lt_hi hw hcc, ?_⟩⟩
        have hs := sHi_int hcc
        rcases dyad_split (d6 hcc) hRns with hsp | hsp
        · exact hsp
        · have := dyad_bounds hsp (by
            have hmm : midOf R1 R2 = R1 + (R2 - R1) / 2 := rfl
            omega)
          dsimp only at this
          omega
      · intro q hq
        obtain ⟨q1, q2⟩ := q
        rw [Option.some.injEq, Prod.mk.injEq] at hq
        obtain ⟨hq1, hq2⟩ := hq
        subst hq1
        subst hq2
        dsimp only
        rw [if_neg him]
        have := dyad_bounds d1 (by omega)
        dsimp only at this
        exact ⟨by omega, by omega, d1⟩

end dst

namespace dst

theorem toList_mk {V : Type} (v : V) (lo hi : Int) (l r : node V) :
    (node.mk v lo hi l r).toList = if lo = hi then [(lo, v)] else l.toList ++ r.toList := rfl

theorem toList_leaf {V : Type} (v : V) (i : Int) :
    (node.mk v i i .null .null).toList = [(i, v)] := by rw [toList_mk, if_pos rfl]

/-- `SameSide` only looks at a node's range, so it transfers between nodes
with the same `_range` field. -/
theorem sameSide_congr {V : Type} {w w2 : V} {lo hi : Int} {l r l2 r2 : node V}
    {i : Int} {pr : Option (Int × Int)} (h : SameSide (node.mk w lo hi l r) i pr) :
    SameSide (node.mk w2 lo hi l2 r2) i pr := by
  match pr with
  | none => trivial
  | some p =>
    simp only [SameSide] at h ⊢
    by_cases hm : i < midOf p.1 p.2
    · rw [if_pos hm] at h ⊢
      exact h
    · rw [if_neg hm] at h ⊢
      exact h

/-- A fresh leaf for index `i` sits correctly in whichever bisection half of
the parent's range contains `i`. -/
theorem sameSide_leaf {V : Type} (v : V) (i : Int) (pr : Option (Int × Int))
    (hp : PCtx i pr) : SameSide (node.mk v i i .null .null) i pr := by
  match pr with
  | none => trivial
  | some p =>
    obtain ⟨h1, h2, _, _⟩ := hp
    simp only [SameSide]
    by_cases hm : i < midOf p.1 p.2
    · rw [if_pos hm]
      exact ⟨h1, by rw [sHi_leaf]; omega, fun hc => absurd rfl hc⟩
    · rw [if_neg hm]
      exact ⟨by omega, by rw [sHi_leaf]; omega, fun hc => absurd rfl hc⟩

/-- A node whose range is a dyadic block of the half of the parent's range
containing `i` sits correctly on that side. -/
theorem sameSide_of_block {V : Type} {w : V} {alo ahi i : Int} {l r : node V}
    {pr : Option (Int × Int)} (hlt : alo < ahi)
    (h : ∀ p : Int × Int, pr = some p →
      (if i < midOf p.1 p.2
       then p.1 ≤ alo ∧ ahi ≤ midOf p.1 p.2 ∧ Dyad (p.1, midOf p.1 p.2) (alo, ahi)
       else midOf p.1 p.2 ≤ alo ∧ ahi ≤ p.2 ∧ Dyad (midOf p.1 p.2, p.2) (alo, ahi))) :
    SameSide (node.mk w alo ahi l r) i pr := by
  match pr with
  | none => trivial
  | some p =>
    have h2 := h p rfl
    simp only [SameSide]
    by_cases hm : i < midOf p.1 p.2
    · rw [if_pos hm] at h2 ⊢
      exact ⟨h2.1, by rw [sHi_int (by omega : alo ≠ ahi)]; exact h2.2.1,
        fun _ => ⟨hlt, h2.2.2⟩⟩
    · rw [if_neg hm] at h2 ⊢
      exact ⟨h2.1, by rw [sHi_int (by omega : alo ≠ ahi)]; exact h2.2.1,
        fun _ => ⟨hlt, h2.2.2⟩⟩

end dst

namespace dst

/-- Specification of `tree::_insert` (lines 317-346) on a well-formed
subtree: with enough fuel the fueled recursion returns a non-null
well-formed subtree whose contents are the old contents with `(i, v)`
inserted (overwriting), and which still sits in the bisection half of the
parent's range that contains `i`. -/
theorem insertGo_spec {V : Type} (f : V → V → V) (e : V) :
    ∀ (fuel : Nat) (t : node V) (i : Int) (v : V) (pr : Option (Int × Int)),
    WF f e t → PCtx i pr → SameSide t i pr → t.height + 2 ≤ fuel →
    ∃ t2 : node V, insertGo f e fuel t i v pr = some t2 ∧
      WF f e t2 ∧ t2 ≠ .null ∧
      t2.toList = mapInsert t.toList i v ∧
      SameSide t2 i pr ∧
      t2.spanLo ≤ i ∧ i < t2.spanHi := by
  intro fuel
  induction fuel with
  | zero => intro t i v pr _ _ _ hf; omega
  | succ fuel ih =>
    intro t i v pr hw hp hss hf
    cases t with
    | null =>
      refine ⟨.mk v i i .null .null, insertGo_succ_null f e fuel i v pr,
        wf_leaf f e v i, by simp, by rw [toList_leaf]; rfl,
        sameSide_leaf v i pr hp, ?_, ?_⟩
      · rw [spanLo_mk]
      · rw [spanHi_mk, sHi_leaf]
        omega
    | mk w lo hi l r =>
      have hh : (node.mk w lo hi l r).height = 1 + max l.height r.height := rfl
      rw [insertGo_succ_mk]
      by_cases hleaf : lo = hi ∧ lo = i
      · rw [if_pos hleaf]
        obtain ⟨h1, h2⟩ := hleaf
        subst h2
        subst h1
        obtain ⟨hl0, hr0⟩ := wf_leaf_elim hw
        subst hl0
        subst hr0
        refine ⟨.mk v lo lo .null .null, rfl, wf_leaf f e v lo, by simp,
          by rw [toList_leaf, toList_leaf, mapInsert_single], sameSide_congr hss, ?_, ?_⟩
        · rw [spanLo_mk]
        · rw [spanHi_mk, sHi_leaf]
          omega
      · rw [if_neg hleaf]
        by_cases hout : i < lo ∨ i ≥ hi
        · rw [if_pos hout]
          obtain ⟨alo, ahi, hER, hai, hia, hpw, hLt, hGe, hPr⟩ :=
            extendRange_spec hw hout hleaf hp hss
          rw [hER]
          dsimp only
          obtain ⟨G, rfl⟩ : ∃ G, fuel = G + 1 + 1 := ⟨fuel - 2, by omega⟩
          by_cases hil : i < lo
          · obtain ⟨him, hcOld⟩ := hLt hil
            rw [if_pos hil, insertGo_succ_mk,
              if_neg (by omega : ¬(alo = ahi ∧ alo = i)),
              if_neg (by omega : ¬(i < alo ∨ i ≥ ahi)),
              if_pos him, insertGo_succ_null]
            refine ⟨node.mk (f v w) alo ahi (node.mk v i i .null .null)
              (node.mk w lo hi l r), rfl, ?_, by simp, ?_,
              sameSide_of_block (by omega) hPr, ?_, ?_⟩
            · refine wf_internal_intro (by omega) hpw (by simp) (by simp)
                ⟨hai, by have := sHi_leaf i; omega, fun hc => absurd rfl hc⟩
                hcOld rfl (wf_leaf f e v i) hw
            · rw [toList_mk, if_neg (by omega : ¬alo = ahi), toList_leaf,
                mapInsert_all_gt i v ((node.mk w lo hi l r).toList) (fun p hp2 => by
                  have h3 := wf_keys_bound hw p hp2
                  rw [spanLo_mk] at h3
                  omega)]
              rfl
            · rw [spanLo_mk]
              exact hai
            · rw [spanHi_mk, sHi_int (by omega : alo ≠ ahi)]
              exact hia
          · obtain ⟨him, hcOld⟩ := hGe hil
            have hii : i ≥ hi := by
              rcases hout with h3 | h3
              · exact absurd h3 hil
              · exact h3
            have hsi : sHi lo hi ≤ i := by
              unfold sHi
              split
              · rename_i h1
                have h2 : ¬lo = i := fun h2 => hleaf ⟨h1, h2⟩
                omega
              · omega
            rw [if_neg hil, insertGo_succ_mk,
              if_neg (by omega : ¬(alo = ahi ∧ alo = i)),
              if_neg (by omega : ¬(i < alo ∨ i ≥ ahi)),
              if_neg (by omega : ¬i < midOf alo ahi), insertGo_succ_null]
            refine ⟨node.mk (f w v) alo ahi (node.mk w lo hi l r)
              (node.mk v i i .null .null), rfl, ?_, by simp, ?_,
              sameSide_of_block (by omega) hPr, ?_, ?_⟩
            · refine wf_internal_intro (by omega) hpw (by simp) (by simp)
                hcOld
                ⟨by omega, by have := sHi_leaf i; omega, fun hc => absurd rfl hc⟩
                rfl hw (wf_leaf f e v i)
            · rw [toList_mk, if_neg (by omega : ¬alo = ahi), toList_leaf,
                mapInsert_all_lt i v ((node.mk w lo hi l r).toList) (fun p hp2 => by
                  have h3 := wf_keys_bound hw p hp2
                  rw [spanHi_mk] at h3
                  omega)]
            · rw [spanLo_mk]
              exact hai
            · rw [spanHi_mk, sHi_int (by omega : alo ≠ ahi)]
              exact hia
        · rw [if_neg hout]
          have hin : lo ≤ i ∧ i < hi := by
            constructor <;> omega
          have hne : lo ≠ hi := by omega
          have hm := wf_mid_facts hw hne
          obtain ⟨hpw, hln, hrn, hcl, hcr, hval, hwl, hwr⟩ := wf_internal hw hne
          have hpc : PCtx i (some (lo, hi)) :=
            ⟨by dsimp only; omega, by dsimp only; omega, hpw, by dsimp only; omega⟩
          by_cases him : i < midOf lo hi
          · rw [if_pos him]
            have hssl : SameSide l i (some (lo, hi)) := by
              simp only [SameSide]
              rw [if_pos him]
              exact hcl
            obtain ⟨l2, hl2e, hl2wf, hl2n, hl2t, hl2ss, hl2lo, hl2hi⟩ :=
              ih l i v (some (lo, hi)) hwl hpc hssl (by omega)
            rw [hl2e]
            have hcl2 : ChildOK l2 lo (midOf lo hi) := by
              simp only [SameSide] at hl2ss
              rw [if_pos him] at hl2ss
              exact hl2ss
            refine ⟨node.mk (f (l2.val e) (r.val e)) lo hi l2 r, rfl,
              wf_internal_intro hne hpw hl2n hrn hcl2 hcr rfl hl2wf hwr,
              by simp, ?_, sameSide_congr hss, ?_, ?_⟩
            · rw [toList_mk, if_neg hne, toList_mk, if_neg hne,
                mapInsert_append_left i v _ _ (fun p hp2 => by
                  have h1 := wf_keys_bound hwr p hp2
                  have h2 := childOK_span hcr hrn
                  omega), hl2t]
            · rw [spanLo_mk]
              omega
            · rw [spanHi_mk, sHi_int hne]
              omega
          · rw [if_neg him]
            have hssr : SameSide r i (some (lo, hi)) := by
              simp only [SameSide]
              rw [if_neg him]
              exact hcr
            obtain ⟨r2, hr2e, hr2wf, hr2n, hr2t, hr2ss, hr2lo, hr2hi⟩ :=
              ih r i v (some (lo, hi)) hwr hpc hssr (by omega)
            rw [hr2e]
            have hcr2 : ChildOK r2 (midOf lo hi) hi := by
              simp only [SameSide] at hr2ss
              rw [if_neg him] at hr2ss
              exact hr2ss
            refine ⟨node.mk (f (l.val e) (r2.val e)) lo hi l r2, rfl,
              wf_internal_intro hne hpw hln hr2n hcl hcr2 rfl hwl hr2wf,
              by simp, ?_, sameSide_congr hss, ?_, ?_⟩
            · rw [toList_mk, if_neg hne, toList_mk, if_neg hne,
                mapInsert_append_right i v _ _ (fun p hp2 => by
                  have h1 := wf_keys_bound hwl p hp2
                  have h2 := childOK_span hcl hln
                  omega), hr2t]
            · rw [spanLo_mk]
              omega
            · rw [spanHi_mk, sHi_int hne]
              omega

end dst

namespace dst

theorem isNull_eq_true_iff {V : Type} (t : node V) : t.isNull = true ↔ t = .null := by
  cases t <;> simp [node.isNull]

theorem eraseGo_mk {V : Type} (f : V → V → V) (e w : V) (lo hi : Int)
    (l r : node V) (i : Int) :
    eraseGo f e (node.mk w lo hi l r) i =
      if lo = hi then .null
      else
        if (if i < midOf lo hi then eraseGo f e l i else l).isNull
            || (if i < midOf lo hi then r else eraseGo f e r i).isNull then
          (if (if i < midOf lo hi then eraseGo f e l i else l).isNull
           then (if i < midOf lo hi then r else eraseGo f e r i)
           else (if i < midOf lo hi then eraseGo f e l i else l))
        else .mk (f ((if i < midOf lo hi then eraseGo f e l i else l).val e)
                    ((if i < midOf lo hi then r else eraseGo f e r i).val e)) lo hi
               (if i < midOf lo hi then eraseGo f e l i else l)
               (if i < midOf lo hi then r else eraseGo f e r i) := rfl

theorem state_erase_mk {V : Type} (f : V → V → V) (e : V) (w : V) (lo hi : Int)
    (l r : node V) (flag : Bool) (i : Int) :
    state.erase f e ⟨node.mk w lo hi l r, flag⟩ i =
      if lo = hi then ⟨.null, true⟩
      else
        if (if i < midOf lo hi then eraseGo f e l i else l).isNull
            || (if i < midOf lo hi then r else eraseGo f e r i).isNull then
          ⟨if (if i < midOf lo hi then eraseGo f e l i else l).isNull
            then (if i < midOf lo hi then r else eraseGo f e r i)
            else (if i < midOf lo hi then eraseGo f e l i else l), false⟩
        else ⟨.mk (f ((if i < midOf lo hi then eraseGo f e l i else l).val e)
          ((if i < midOf lo hi then r else eraseGo f e r i).val e)) lo hi
          (if i < midOf lo hi then eraseGo f e l i else l)
          (if i < midOf lo hi then r else eraseGo f e r i), flag⟩ := rfl

/-- `tree::erase` delegates to `tree::_erase` at the root: the resulting
`_root` pointer is exactly what `_erase(_root, index)` returns. -/
theorem state_erase_root {V : Type} (f : V → V → V) (e : V) (s : state V) (i : Int) :
    (s.erase f e i).root = eraseGo f e s.root i := by
  obtain ⟨root, flag⟩ := s
  cases root with
  | null => rfl
  | mk w lo hi l r =>
    show (state.erase f e ⟨node.mk w lo hi l r, flag⟩ i).root = _
    rw [state_erase_mk, eraseGo_mk]
    by_cases heq : lo = hi
    · rw [if_pos heq, if_pos heq]
    · rw [if_neg heq, if_neg heq]
      by_cases hnl : ((if i < midOf lo hi then eraseGo f e l i else l).isNull
          || (if i < midOf lo hi then r else eraseGo f e r i).isNull) = true
      · rw [if_pos hnl, if_pos hnl]
      · rw [if_neg hnl, if_neg hnl]

theorem mapErase_cons {V : Type} (j : Int) (u : V) (m : List (Int × V)) (i : Int) :
    mapErase ((j, u) :: m) i = if i = j then m else (j, u) :: mapErase m i := rfl

theorem mapErase_append_left {V : Type} (i : Int) :
    ∀ A B : List (Int × V), (∃ w, (i, w) ∈ A) →
      mapErase (A ++ B) i = mapErase A i ++ B := by
  intro A
  induction A with
  | nil =>
    intro B h
    obtain ⟨w, hw⟩ := h
    simp at hw
  | cons q rest ih =>
    intro B h
    obtain ⟨j, u⟩ := q
    rw [List.cons_append, mapErase_cons, mapErase_cons]
    by_cases hij : i = j
    · rw [if_pos hij, if_pos hij]
    · rw [if_neg hij, if_neg hij, List.cons_append, ih]
      obtain ⟨w, hw⟩ := h
      rcases List.mem_cons.mp hw with h1 | h1
      · rw [Prod.mk.injEq] at h1
        exact absurd h1.1 hij
      · exact ⟨w, h1⟩

theorem mapErase_append_right {V : Type} (i : Int) :
    ∀ A B : List (Int × V), (∀ p ∈ A, p.1 ≠ i) →
      mapErase (A ++ B) i = A ++ mapErase B i := by
  intro A
  induction A with
  | nil => intro B _; rfl
  | cons q rest ih =>
    intro B h
    obtain ⟨j, u⟩ := q
    have hj := h (j, u) (by simp)
    rw [List.cons_append, mapErase_cons, if_neg (fun hc => hj hc.symm),
      List.cons_append, ih _ (fun p hp => h p (by simp [hp]))]

/-- When a node's span lies inside a dyadic block of `[a, b)`, it also sits
correctly in the slot `[a, b)` itself. -/
theorem childOK_of_dyad_sub {V : Type} {t : node V} {a b c d : Int}
    (h : ChildOK t c d) (hdy : Dyad (a, b) (c, d))
    (ha : a ≤ c) (hb : d ≤ b) : ChildOK t a b := by
  cases t with
  | null => trivial
  | mk w lo hi cl cr =>
    obtain ⟨h1, h2, h3⟩ := h
    exact ⟨by omega, by omega, fun hcc => ⟨(h3 hcc).1, dyad_trans hdy (h3 hcc).2⟩⟩

end dst

namespace dst

theorem isNull_eq_false_iff {V : Type} (t : node V) : t.isNull = false ↔ t ≠ .null := by
  cases t <;> simp [node.isNull]

/-- Specification of `tree::_erase` (lines 348-376) on a well-formed
subtree: the result is well formed, still fits every slot the old subtree
fitted (so the parent's invariants survive the splice), and when `i` is
present the contents lose exactly the binding of `i`. -/
theorem eraseGo_spec {V : Type} {f : V → V → V} {e : V} (i : Int) :
    ∀ t : node V, WF f e t →
      WF f e (eraseGo f e t i) ∧
      (∀ a b : Int, ChildOK t a b → ChildOK (eraseGo f e t i) a b) ∧
      ((∃ w0, (i, w0) ∈ t.toList) → (eraseGo f e t i).toList = mapErase t.toList i) := by
  intro t
  induction t with
  | null => intro _; exact ⟨trivial, fun a b _ => trivial, fun _ => rfl⟩
  | mk w lo hi l r ihl ihr =>
    intro hw
    rcases eq_or_ne lo hi with heq | hne
    · subst heq
      rw [eraseGo_mk, if_pos rfl]
      refine ⟨trivial, fun a b _ => trivial, fun hp => ?_⟩
      obtain ⟨w0, hw0⟩ := hp
      rw [toList_mk, if_pos rfl] at hw0
      simp at hw0
      rw [toList_mk, if_pos rfl, mapErase_cons, if_pos hw0.1]
      rfl
    · have hm := wf_mid_facts hw hne
      obtain ⟨hpw, hln, hrn, hcl, hcr, hval, hwl, hwr⟩ := wf_internal hw hne
      have hdyL : Dyad (lo, hi) (lo, midOf lo hi) := Dyad.left (Dyad.refl _ _)
      have hdyR : Dyad (lo, hi) (midOf lo hi, hi) := Dyad.right (Dyad.refl _ _)
      have hsv := sHi_int hne
      rw [eraseGo_mk, if_neg hne]
      by_cases him : i < midOf lo hi
      · simp only [if_pos him]
        obtain ⟨ewf, etr, etl⟩ := ihl hwl
        have hkeyR : ∀ p ∈ r.toList, midOf lo hi ≤ p.1 := fun p hp => by
          have h1 := wf_keys_bound hwr p hp
          have h2 := childOK_span hcr hrn
          omega
        have hpresL : (∃ w0, (i, w0) ∈ (node.mk w lo hi l r).toList) →
            ∃ w0, (i, w0) ∈ l.toList := by
          intro hp
          obtain ⟨w0, h0⟩ := hp
          rw [toList_mk, if_neg hne] at h0
          rcases List.mem_append.mp h0 with h1 | h1
          · exact ⟨w0, h1⟩
          · have := hkeyR _ h1
            omega
        by_cases hl2 : eraseGo f e l i = .null
        · rw [hl2, if_pos (by simp [node.isNull]), if_pos (by simp [node.isNull])]
          refine ⟨hwr, fun a b h => ?_, fun hp => ?_⟩
          · obtain ⟨ha, hb, hd⟩ := h
            obtain ⟨hlt2, hdy2⟩ := hd hne
            exact childOK_of_dyad_sub hcr (dyad_trans hdy2 hdyR) (by omega) (by omega)
          · obtain ⟨w0, h0⟩ := hpresL hp
            rw [toList_mk, if_neg hne, mapErase_append_left i _ _ ⟨w0, h0⟩,
              ← etl ⟨w0, h0⟩, hl2]
            rfl
        · rw [if_neg (by
              rw [(isNull_eq_false_iff _).mpr hl2, (isNull_eq_false_iff _).mpr hrn]
              simp)]
          refine ⟨wf_internal_intro hne hpw hl2 hrn (etr lo (midOf lo hi) hcl) hcr
            rfl ewf hwr, fun a b h => h, fun hp => ?_⟩
          rw [toList_mk, if_neg hne, toList_mk, if_neg hne,
            mapErase_append_left i _ _ (hpresL hp), etl (hpresL hp)]
      · simp only [if_neg him]
        obtain ⟨ewf, etr, etl⟩ := ihr hwr
        have hkeyL : ∀ p ∈ l.toList, p.1 < midOf lo hi := fun p hp => by
          have h1 := wf_keys_bound hwl p hp
          have h2 := childOK_span hcl hln
          omega
        have hpresR : (∃ w0, (i, w0) ∈ (node.mk w lo hi l r).toList) →
            ∃ w0, (i, w0) ∈ r.toList := by
          intro hp
          obtain ⟨w0, h0⟩ := hp
          rw [toList_mk, if_neg hne] at h0
          rcases List.mem_append.mp h0 with h1 | h1
          · have := hkeyL _ h1
            omega
          · exact ⟨w0, h1⟩
        by_cases hr2 : eraseGo f e r i = .null
        · rw [hr2, if_pos (by simp [node.isNull]),
            if_neg (by rw [(isNull_eq_false_iff _).mpr hln]; simp)]
          refine ⟨hwl, fun a b h => ?_, fun hp => ?_⟩
          · obtain ⟨ha, hb, hd⟩ := h
            obtain ⟨hlt2, hdy2⟩ := hd hne
            exact childOK_of_dyad_sub hcl (dyad_trans hdy2 hdyL) (by omega) (by omega)
          · obtain ⟨w0, h0⟩ := hpresR hp
            rw [toList_mk, if_neg hne,
              mapErase_append_right i _ _ (fun p hp2 => by
                have := hkeyL p hp2
                omega),
              ← etl ⟨w0, h0⟩, hr2]
            simp [node.toList]
        · rw [if_neg (by
              rw [(isNull_eq_false_iff _).mpr hr2, (isNull_eq_false_iff _).mpr hln]
              simp)]
          refine ⟨wf_internal_intro hne hpw hln hr2 hcl (etr (midOf lo hi) hi hcr)
            rfl hwl ewf, fun a b h => h, fun hp => ?_⟩
          rw [toList_mk, if_neg hne, toList_mk, if_neg hne,
            mapErase_append_right i _ _ (fun p hp2 => by
              have := hkeyL p hp2
              omega),
            etl (hpresR hp)]

end dst

namespace dst

/-- Reference contents threaded through a tail of the operation list. -/
def specFrom {V : Type} (m : List (Int × V)) : List (Op V) → List (Int × V)
  | [] => m
  | .ins i v :: rest => specFrom (mapInsert m i v) rest
  | .del i :: rest => specFrom (mapErase m i) rest

theorem specFrom_cons_ins {V : Type} (m : List (Int × V)) (i : Int) (v : V)
    (rest : List (Op V)) :
    specFrom m (.ins i v :: rest) = specFrom (mapInsert m i v) rest := rfl

theorem specFrom_cons_del {V : Type} (m : List (Int × V)) (i : Int)
    (rest : List (Op V)) :
    specFrom m (.del i :: rest) = specFrom (mapErase m i) rest := rfl

theorem specOf_eq {V : Type} (ops : List (Op V)) : specOf ops = specFrom [] ops := by
  show List.foldl _ [] ops = _
  generalize ([] : List (Int × V)) = m
  induction ops generalizing m with
  | nil => rfl
  | cons op rest ih =>
    cases op with
    | ins i v => rw [List.foldl_cons]; exact ih _
    | del i => rw [List.foldl_cons]; exact ih _

theorem specFrom_append {V : Type} :
    ∀ (A B : List (Op V)) (m : List (Int × V)),
      specFrom m (A ++ B) = specFrom (specFrom m A) B := by
  intro A
  induction A with
  | nil => intro B m; rfl
  | cons op rest ih =>
    intro B m
    cases op with
    | ins i v => rw [List.cons_append, specFrom_cons_ins, specFrom_cons_ins, ih]
    | del i => rw [List.cons_append, specFrom_cons_del, specFrom_cons_del, ih]

theorem validFromB_cons_ins {V : Type} (m : List (Int × V)) (i : Int) (v : V)
    (rest : List (Op V)) :
    validFromB m (.ins i v :: rest) = validFromB (mapInsert m i v) rest := rfl

theorem validFromB_cons_del {V : Type} (m : List (Int × V)) (i : Int)
    (rest : List (Op V)) :
    validFromB m (.del i :: rest) =
      ((m.map Prod.fst).contains i && validFromB (mapErase m i) rest) := rfl

theorem validFromB_append_left {V : Type} :
    ∀ (A B : List (Op V)) (m : List (Int × V)),
      validFromB m (A ++ B) = true → validFromB m A = true := by
  intro A
  induction A with
  | nil => intro B m _; rfl
  | cons op rest ih =>
    intro B m h
    cases op with
    | ins i v =>
      rw [List.cons_append, validFromB_cons_ins] at h
      rw [validFromB_cons_ins]
      exact ih B _ h
    | del i =>
      rw [List.cons_append, validFromB_cons_del] at h
      rw [validFromB_cons_del]
      rw [Bool.and_eq_true] at h ⊢
      exact ⟨h.1, ih B _ h.2⟩

theorem contains_keys_mem {V : Type} (m : List (Int × V)) (i : Int)
    (h : (m.map Prod.fst).contains i = true) : ∃ w0, (i, w0) ∈ m := by
  have h2 : i ∈ m.map Prod.fst := by simpa using h
  obtain ⟨p, hp, hpe⟩ := List.mem_map.mp h2
  refine ⟨p.2, ?_⟩
  rw [show (i, p.2) = p from by rw [← hpe]]
  exact hp

/-- Every state the public interface can reach (any inserts, any erases —
even erases of absent indices) has a well-formed `_root` subtree. -/
theorem applyList_wf {V : Type} (f : V → V → V) (e : V) :
    ∀ (ops : List (Op V)) (s : state V), WF f e s.root →
      WF f e (ops.foldl (state.apply f e) s).root := by
  intro ops
  induction ops with
  | nil => intro s h; exact h
  | cons op rest ih =>
    intro s h
    rw [List.foldl_cons]
    apply ih
    cases op with
    | ins i v =>
      show WF f e (insertRoot f e s.root i v)
      obtain ⟨t2, he, hwf, _, _, _, _, _⟩ :=
        insertGo_spec f e (s.root.height + 2) s.root i v none h trivial trivial
          (le_refl _)
      unfold insertRoot
      rw [he]
      exact hwf
    | del i =>
      show WF f e (state.erase f e s i).root
      rw [state_erase_root]
      exact (eraseGo_spec i s.root h).1

theorem runOps_wf {V : Type} (f : V → V → V) (e : V) (ops : List (Op V)) :
    WF f e (runOps f e ops).root :=
  applyList_wf f e ops state.empty trivial

/-- On a valid operation sequence (every erase hits a present index) the
tree's contents track the reference map exactly. -/
theorem applyList_toList {V : Type} (f : V → V → V) (e : V) :
    ∀ (ops : List (Op V)) (s : state V), WF f e s.root →
      validFromB s.root.toList ops = true →
      (ops.foldl (state.apply f e) s).root.toList = specFrom s.root.toList ops := by
  intro ops
  induction ops with
  | nil => intro s _ _; rfl
  | cons op rest ih =>
    intro s hw hv
    rw [List.foldl_cons]
    cases op with
    | ins i v =>
      rw [validFromB_cons_ins] at hv
      obtain ⟨t2, he, hwf, _, htl, _, _, _⟩ :=
        insertGo_spec f e (s.root.height + 2) s.root i v none hw trivial trivial
          (le_refl _)
      have hroot : (state.apply f e s (Op.ins i v)).root = t2 := by
        show insertRoot f e s.root i v = t2
        unfold insertRoot
        rw [he]
        rfl
      have h2 := ih (state.apply f e s (Op.ins i v))
        (by rw [hroot]; exact hwf)
        (by rw [hroot, htl]; exact hv)
      rw [specFrom_cons_ins, h2, hroot, htl]
    | del i =>
      rw [validFromB_cons_del, Bool.and_eq_true] at hv
      obtain ⟨hc, hv2⟩ := hv
      obtain ⟨w0, hw0⟩ := contains_keys_mem _ _ hc
      have hroot : (state.apply f e s (Op.del i)).root = eraseGo f e s.root i := by
        show (state.erase f e s i).root = _
        exact state_erase_root f e s i
      obtain ⟨ewf, _, etl⟩ := eraseGo_spec i s.root hw
      have h2 := ih (state.apply f e s (Op.del i))
        (by rw [hroot]; exact ewf)
        (by rw [hroot, etl ⟨w0, hw0⟩]; exact hv2)
      rw [specFrom_cons_del, h2, hroot, etl ⟨w0, hw0⟩]

theorem runOps_toList {V : Type} (f : V → V → V) (e : V) (ops : List (Op V))
    (hv : validFromB [] ops = true) :
    (runOps f e ops).root.toList = specOf ops := by
  rw [specOf_eq]
  exact applyList_toList f e ops state.empty trivial hv

end dst

namespace dst

theorem queryGo_mk {V : Type} (f : V → V → V) (e v : V) (lo hi : Int) (l r : node V)
    (seg : Int × Int) :
    queryGo f e (node.mk v lo hi l r) seg =
      if seg.1 ≤ lo ∧ hi ≤ seg.2 then v
      else if seg.1 < midOf lo hi ∧ midOf lo hi ≤ seg.2 then
        f (queryGo f e l seg) (queryGo f e r seg)
      else if seg.2 < midOf lo hi then queryGo f e l seg
      else if midOf lo hi ≤ seg.1 then queryGo f e r seg
      else e := rfl

/-- `tree::_query` on a point range `(i, i)` returns the stored value of a
present index `i`. -/
theorem query_point_present {V : Type} {f : V → V → V} {e : V} (i : Int) (w0 : V) :
    ∀ t : node V, WF f e t → (i, w0) ∈ t.toList → queryGo f e t (i, i) = w0 := by
  intro t
  induction t with
  | null => intro _ h; simp [node.toList] at h
  | mk v lo hi l r ihl ihr =>
    intro hw hmem
    rcases eq_or_ne lo hi with heq | hne
    · subst heq
      rw [toList_mk, if_pos rfl] at hmem
      simp at hmem
      obtain ⟨h1, h2⟩ := hmem
      subst h1
      subst h2
      rw [queryGo_mk]
      dsimp only
      rw [if_pos ⟨le_refl _, le_refl _⟩]
    · have hm := wf_mid_facts hw hne
      obtain ⟨hpw, hln, hrn, hcl, hcr, hval, hwl, hwr⟩ := wf_internal hw hne
      have hsl := childOK_span hcl hln
      have hsr := childOK_span hcr hrn
      rw [toList_mk, if_neg hne] at hmem
      rw [queryGo_mk]
      dsimp only
      have hkey : lo ≤ i ∧ i < hi := by
        rcases List.mem_append.mp hmem with h1 | h1
        · have := wf_keys_bound hwl _ h1
          constructor <;> omega
        · have := wf_keys_bound hwr _ h1
          constructor <;> omega
      rw [if_neg (by omega : ¬(i ≤ lo ∧ hi ≤ i)),
        if_neg (by omega : ¬(i < midOf lo hi ∧ midOf lo hi ≤ i))]
      by_cases him : i < midOf lo hi
      · rw [if_pos him]
        apply ihl hwl
        rcases List.mem_append.mp hmem with h1 | h1
        · exact h1
        · exact absurd (wf_keys_bound hwr _ h1).1 (by omega)
      · rw [if_neg him, if_pos (by omega : midOf lo hi ≤ i)]
        apply ihr hwr
        rcases List.mem_append.mp hmem with h1 | h1
        · exact absurd (wf_keys_bound hwl _ h1).2 (by omega)
        · exact h1

/-- `tree::_query` on a point range `(i, i)` returns the default value when
`i` is absent. -/
theorem query_point_absent {V : Type} {f : V → V → V} {e : V} (i : Int) :
    ∀ t : node V, WF f e t → (∀ w0, (i, w0) ∉ t.toList) → queryGo f e t (i, i) = e := by
  intro t
  induction t with
  | null => intro _ _; rfl
  | mk v lo hi l r ihl ihr =>
    intro hw habs
    rcases eq_or_ne lo hi with heq | hne
    · subst heq
      obtain ⟨hl0, hr0⟩ := wf_leaf_elim hw
      subst hl0
      subst hr0
      have hne2 : i ≠ lo := by
        intro h
        subst h
        exact habs v (by rw [toList_leaf]; simp)
      have hmid : midOf lo lo = lo := by unfold midOf; omega
      rw [queryGo_mk]
      dsimp only
      rw [hmid, if_neg (by omega : ¬(i ≤ lo ∧ lo ≤ i)),
        if_neg (by omega : ¬(i < lo ∧ lo ≤ i))]
      by_cases hil : i < lo
      · rw [if_pos hil]
        rfl
      · rw [if_neg hil, if_pos (by omega : lo ≤ i)]
        rfl
    · have hm := wf_mid_facts hw hne
      obtain ⟨hpw, hln, hrn, hcl, hcr, hval, hwl, hwr⟩ := wf_internal hw hne
      have habsl : ∀ w0, (i, w0) ∉ l.toList := fun w0 h =>
        habs w0 (by rw [toList_mk, if_neg hne]; exact List.mem_append.mpr (Or.inl h))
      have habsr : ∀ w0, (i, w0) ∉ r.toList := fun w0 h =>
        habs w0 (by rw [toList_mk, if_neg hne]; exact List.mem_append.mpr (Or.inr h))
      rw [queryGo_mk]
      dsimp only
      rw [if_neg (by omega : ¬(i ≤ lo ∧ hi ≤ i)),
        if_neg (by omega : ¬(i < midOf lo hi ∧ midOf lo hi ≤ i))]
      by_cases him : i < midOf lo hi
      · rw [if_pos him]
        exact ihl hwl habsl
      · rw [if_neg him, if_pos (by omega : midOf lo hi ≤ i)]
        exact ihr hwr habsr

end dst

namespace dst

theorem fold1_cons {V : Type} (f : V → V → V) (e v : V) (vs : List V) :
    fold1 f e (v :: vs) = vs.foldl f v := rfl

theorem foldl_assoc_law {V : Type} {f : V → V → V} (hA : Assoc f) :
    ∀ (bs : List V) (x b : V), f x (bs.foldl f b) = bs.foldl f (f x b) := by
  intro bs
  induction bs with
  | nil => intro x b; rfl
  | cons c cs ih =>
    intro x b
    rw [List.foldl_cons, List.foldl_cons, ih, hA]

theorem fold1_append_ne {V : Type} {f : V → V → V} {e : V} (hA : Assoc f) :
    ∀ X Y : List V, X ≠ [] → Y ≠ [] →
      fold1 f e (X ++ Y) = f (fold1 f e X) (fold1 f e Y) := by
  intro X Y hX hY
  match X, Y with
  | [], _ => exact absurd rfl hX
  | _ :: _, [] => exact absurd rfl hY
  | x :: xs, y :: ys =>
    rw [List.cons_append, fold1_cons, fold1_cons, fold1_cons, List.foldl_append,
      List.foldl_cons, foldl_assoc_law hA]

theorem fold1_append {V : Type} {f : V → V → V} {e : V} (hA : Assoc f)
    (hL : LeftId f e) (hR : RightId f e) :
    ∀ X Y : List V, fold1 f e (X ++ Y) = f (fold1 f e X) (fold1 f e Y) := by
  intro X Y
  match X, Y with
  | [], Y =>
    rw [List.nil_append]
    exact (hL _).symm
  | x :: xs, [] =>
    rw [List.append_nil]
    exact (hR _).symm
  | x :: xs, y :: ys =>
    exact fold1_append_ne hA _ _ (by simp) (by simp)

/-- On a well-formed nonempty subtree the cached `_value` is the `f`-fold,
in index order, of the values stored in it. -/
theorem wf_val_fold {V : Type} {f : V → V → V} {e : V} (hA : Assoc f) :
    ∀ t : node V, WF f e t → t ≠ .null →
      t.val e = fold1 f e (t.toList.map Prod.snd) := by
  intro t
  induction t with
  | null => intro _ h; exact absurd rfl h
  | mk v lo hi l r ihl ihr =>
    intro hw _
    rcases eq_or_ne lo hi with heq | hne
    · subst heq
      rw [toList_mk, if_pos rfl]
      rfl
    · obtain ⟨hpw, hln, hrn, hcl, hcr, hval, hwl, hwr⟩ := wf_internal hw hne
      have hlne : l.toList.map Prod.snd ≠ [] := fun h =>
        wf_toList_ne_nil hwl hln (by simpa using h)
      have hrne : r.toList.map Prod.snd ≠ [] := fun h =>
        wf_toList_ne_nil hwr hrn (by simpa using h)
      rw [toList_mk, if_neg hne, List.map_append, val_mk, hval, ihl hwl hln,
        ihr hwr hrn, ← fold1_append_ne hA _ _ hlne hrne]

theorem presentFold_def {V : Type} (f : V → V → V) (e : V) (m : List (Int × V))
    (a b : Int) :
    presentFold f e m a b =
      fold1 f e ((m.filter (fun p => a ≤ p.1 && p.1 ≤ b)).map Prod.snd) := rfl

/-- `tree::_query` computes the in-order fold of the present values in the
queried range, for an associative functor with a two-sided identity. -/
theorem queryGo_presentFold {V : Type} {f : V → V → V} {e : V}
    (hA : Assoc f) (hL : LeftId f e) (hR : RightId f e) :
    ∀ t : node V, WF f e t → ∀ a b : Int,
      queryGo f e t (a, b) = presentFold f e t.toList a b := by
  intro t
  induction t with
  | null => intro _ a b; rfl
  | mk v lo hi l r ihl ihr =>
    intro hw a b
    rw [queryGo_mk]
    dsimp only
    rcases eq_or_ne lo hi with heq | hne
    · subst heq
      obtain ⟨hl0, hr0⟩ := wf_leaf_elim hw
      subst hl0
      subst hr0
      have hmid : midOf lo lo = lo := by unfold midOf; omega
      rw [hmid, toList_leaf, presentFold_def]
      by_cases h1 : a ≤ lo ∧ lo ≤ b
      · rw [if_pos h1]
        have hkeep : List.filter (fun p => a ≤ p.1 && p.1 ≤ b) [((lo : Int), v)]
            = [(lo, v)] := by
          rw [List.filter_eq_self]
          intro p hp
          simp at hp
          simp [hp]
          omega
        rw [hkeep]
        rfl
      · have hdrop : List.filter (fun p => a ≤ p.1 && p.1 ≤ b) [((lo : Int), v)]
            = [] := by
          rw [List.filter_eq_nil_iff]
          intro p hp
          simp at hp
          simp [hp]
          omega
        rw [hdrop, if_neg h1, if_neg (by omega : ¬(a < lo ∧ lo ≤ b))]
        by_cases h3 : b < lo
        · rw [if_pos h3]
          rfl
        · rw [if_neg h3, if_pos (by omega : lo ≤ a)]
          rfl
    · have hm := wf_mid_facts hw hne
      obtain ⟨hpw, hln, hrn, hcl, hcr, hval, hwl, hwr⟩ := wf_internal hw hne
      have hsl := childOK_span hcl hln
      have hsr := childOK_span hcr hrn
      rw [toList_mk, if_neg hne, presentFold_def, List.filter_append, List.map_append]
      by_cases h1 : a ≤ lo ∧ hi ≤ b
      · rw [if_pos h1]
        have hfl : l.toList.filter (fun p => a ≤ p.1 && p.1 ≤ b) = l.toList := by
          rw [List.filter_eq_self]
          intro p hp
          have h2 := wf_keys_bound hwl p hp
          simp
          omega
        have hfr : r.toList.filter (fun p => a ≤ p.1 && p.1 ≤ b) = r.toList := by
          rw [List.filter_eq_self]
          intro p hp
          have h2 := wf_keys_bound hwr p hp
          simp
          omega
        have hlne : l.toList.map Prod.snd ≠ [] := fun h =>
          wf_toList_ne_nil hwl hln (by simpa using h)
        have hrne : r.toList.map Prod.snd ≠ [] := fun h =>
          wf_toList_ne_nil hwr hrn (by simpa using h)
        rw [hfl, hfr, hval, wf_val_fold hA l hwl hln, wf_val_fold hA r hwr hrn,
          ← fold1_append_ne hA _ _ hlne hrne]
      · rw [if_neg h1]
        by_cases h2 : a < midOf lo hi ∧ midOf lo hi ≤ b
        · rw [if_pos h2, ihl hwl a b, ihr hwr a b, presentFold_def, presentFold_def,
            fold1_append hA hL hR]
        · rw [if_neg h2]
          by_cases h3 : b < midOf lo hi
          · rw [if_pos h3, ihl hwl a b, presentFold_def]
            have hfr0 : r.toList.filter (fun p => a ≤ p.1 && p.1 ≤ b) = [] := by
              rw [List.filter_eq_nil_iff]
              intro p hp
              have h4 := wf_keys_bound hwr p hp
              simp
              omega
            rw [hfr0]
            simp
          · rw [if_neg h3, if_pos (by omega : midOf lo hi ≤ a), ihr hwr a b,
              presentFold_def]
            have hfl0 : l.toList.filter (fun p => a ≤ p.1 && p.1 ≤ b) = [] := by
              rw [List.filter_eq_nil_iff]
              intro p hp
              have h4 := wf_keys_bound hwl p hp
              simp
              omega
            rw [hfl0]
            simp

end dst

namespace dst

/-- Inserting `v1` at `i` and then `v2` at `i` produces, node for node, the
tree that inserting `v2` alone produces: the second `_insert` retraces the
first one's path and only the leaf value (and the cached values above it)
change, to exactly what a direct insert of `v2` computes. -/
theorem insertGo_twice {V : Type} (f : V → V → V) (e : V) :
    ∀ (fuel : Nat) (t : node V) (i : Int) (v1 v2 : V) (pr : Option (Int × Int))
      (fuel2 : Nat),
    WF f e t → PCtx i pr → SameSide t i pr → t.height + 2 ≤ fuel →
    ∀ t1, insertGo f e fuel t i v1 pr = some t1 → t1.height + 2 ≤ fuel2 →
    insertGo f e fuel2 t1 i v2 pr = insertGo f e fuel t i v2 pr := by
  intro fuel
  induction fuel with
  | zero => intro t i v1 v2 pr fuel2 _ _ _ hf; omega
  | succ fuel ih =>
    intro t i v1 v2 pr fuel2 hw hp hss hf t1 h1 hf2
    cases t with
    | null =>
      rw [insertGo_succ_null] at h1
      injection h1 with h1
      subst h1
      obtain ⟨G2, rfl⟩ : ∃ G2, fuel2 = G2 + 1 := ⟨fuel2 - 1, by omega⟩
      rw [insertGo_succ_null, insertGo_succ_mk, if_pos ⟨rfl, rfl⟩]
    | mk w lo hi l r =>
      have hh : (node.mk w lo hi l r).height = 1 + max l.height r.height := rfl
      rw [insertGo_succ_mk] at h1
      rw [insertGo_succ_mk]
      by_cases hleaf : lo = hi ∧ lo = i
      · rw [if_pos hleaf] at h1 ⊢
        injection h1 with h1
        subst h1
        obtain ⟨hA, hB⟩ := hleaf
        subst hB
        subst hA
        obtain ⟨hl0, hr0⟩ := wf_leaf_elim hw
        subst hl0
        subst hr0
        obtain ⟨G2, rfl⟩ : ∃ G2, fuel2 = G2 + 1 := ⟨fuel2 - 1, by omega⟩
        rw [insertGo_succ_mk, if_pos ⟨rfl, rfl⟩]
      · rw [if_neg hleaf] at h1 ⊢
        by_cases hout : i < lo ∨ i ≥ hi
        · rw [if_pos hout] at h1 ⊢
          obtain ⟨alo, ahi, hER, hai, hia, hpw, hLt, hGe, hPr⟩ :=
            extendRange_spec hw hout hleaf hp hss
          rw [hER] at h1 ⊢
          dsimp only at h1 ⊢
          obtain ⟨G, rfl⟩ : ∃ G, fuel = G + 1 + 1 := ⟨fuel - 2, by omega⟩
          by_cases hil : i < lo
          · obtain ⟨him, hcOld⟩ := hLt hil
            rw [if_pos hil] at h1 ⊢
            rw [insertGo_succ_mk, if_neg (by omega : ¬(alo = ahi ∧ alo = i)),
              if_neg (by omega : ¬(i < alo ∨ i ≥ ahi)), if_pos him,
              insertGo_succ_null] at h1 ⊢
            have h1' : some (node.mk (f v1 w) alo ahi (node.mk v1 i i .null .null)
                (node.mk w lo hi l r)) = some t1 := h1
            injection h1' with h1'
            subst h1'
            obtain ⟨G2, rfl⟩ : ∃ G2, fuel2 = G2 + 1 + 1 := ⟨fuel2 - 2, by omega⟩
            rw [insertGo_succ_mk, if_neg (by omega : ¬(alo = ahi ∧ alo = i)),
              if_neg (by omega : ¬(i < alo ∨ i ≥ ahi)), if_pos him,
              insertGo_succ_mk, if_pos ⟨rfl, rfl⟩]
          · obtain ⟨him, hcOld⟩ := hGe hil
            rw [if_neg hil] at h1 ⊢
            rw [insertGo_succ_mk, if_neg (by omega : ¬(alo = ahi ∧ alo = i)),
              if_neg (by omega : ¬(i < alo ∨ i ≥ ahi)),
              if_neg (by omega : ¬i < midOf alo ahi),
              insertGo_succ_null] at h1 ⊢
            have h1' : some (node.mk (f w v1) alo ahi (node.mk w lo hi l r)
                (node.mk v1 i i .null .null)) = some t1 := h1
            injection h1' with h1'
            subst h1'
            obtain ⟨G2, rfl⟩ : ∃ G2, fuel2 = G2 + 1 + 1 := ⟨fuel2 - 2, by omega⟩
            rw [insertGo_succ_mk, if_neg (by omega : ¬(alo = ahi ∧ alo = i)),
              if_neg (by omega : ¬(i < alo ∨ i ≥ ahi)),
              if_neg (by omega : ¬i < midOf alo ahi),
              insertGo_succ_mk, if_pos ⟨rfl, rfl⟩]
        · rw [if_neg hout] at h1 ⊢
          have hne : lo ≠ hi := by omega
          have hm := wf_mid_facts hw hne
          obtain ⟨hpw2, hln, hrn, hcl, hcr, hval, hwl, hwr⟩ := wf_internal hw hne
          have hpc : PCtx i (some (lo, hi)) :=
            ⟨by dsimp only; omega, by dsimp only; omega, hpw2, by dsimp only; omega⟩
          by_cases him : i < midOf lo hi
          · rw [if_pos him] at h1 ⊢
            have hssl : SameSide l i (some (lo, hi)) := by
              simp only [SameSide]
              rw [if_pos him]
              exact hcl
            obtain ⟨l1, hl1e, hl1wf, hl1n, hl1t, hl1ss, hl1lo, hl1hi⟩ :=
              insertGo_spec f e fuel l i v1 (some (lo, hi)) hwl hpc hssl (by omega)
            rw [hl1e] at h1
            have h1' : some (node.mk (f (l1.val e) (r.val e)) lo hi l1 r)
                = some t1 := h1
            injection h1' with h1'
            subst h1'
            have ht1h : (node.mk (f (l1.val e) (r.val e)) lo hi l1 r).height
                = 1 + max l1.height r.height := rfl
            obtain ⟨G2, rfl⟩ : ∃ G2, fuel2 = G2 + 1 := ⟨fuel2 - 1, by omega⟩
            rw [insertGo_succ_mk, if_neg hleaf, if_neg hout, if_pos him,
              ih l i v1 v2 (some (lo, hi)) G2 hwl hpc hssl (by omega) l1 hl1e
                (by omega)]
          · rw [if_neg him] at h1 ⊢
            have hssr : SameSide r i (some (lo, hi)) := by
              simp only [SameSide]
              rw [if_neg him]
              exact hcr
            obtain ⟨r1, hr1e, hr1wf, hr1n, hr1t, hr1ss, hr1lo, hr1hi⟩ :=
              insertGo_spec f e fuel r i v1 (some (lo, hi)) hwr hpc hssr (by omega)
            rw [hr1e] at h1
            have h1' : some (node.mk (f (l.val e) (r1.val e)) lo hi l r1)
                = some t1 := h1
            injection h1' with h1'
            subst h1'
            have ht1h : (node.mk (f (l.val e) (r1.val e)) lo hi l r1).height
                = 1 + max l.height r1.height := rfl
            obtain ⟨G2, rfl⟩ : ∃ G2, fuel2 = G2 + 1 := ⟨fuel2 - 1, by omega⟩
            rw [insertGo_succ_mk, if_neg hleaf, if_neg hout, if_neg him,
              ih r i v1 v2 (some (lo, hi)) G2 hwr hpc hssr (by omega) r1 hr1e
                (by omega)]

end dst

namespace dst

/-- Whether an operation inserts at or erases index `i`. -/
def opTouches {V : Type} (i : Int) : Op V → Bool
  | .ins j _ => j == i
  | .del j => j == i

/-- Every node that has children has two non-null children (checked over the
whole tree; a node is childless exactly when its range is a point). -/
def twoKids {V : Type} : node V → Bool
  | .null => true
  | .mk _ lo hi l r =>
    (decide (lo = hi) || (!l.isNull && !r.isNull)) && twoKids l && twoKids r

/-- The claim's exact-halves property: each child's stored `_range` equals
the corresponding bisection half of the parent's range. -/
def rangeEqB {V : Type} : node V → Int → Int → Bool
  | .null, _, _ => false
  | .mk _ lo hi _ _, a, b => decide (lo = a) && decide (hi = b)

def exactHalves {V : Type} : node V → Bool
  | .null => true
  | .mk _ lo hi l r =>
    (decide (lo = hi) ||
      (rangeEqB l lo (midOf lo hi) && rangeEqB r (midOf lo hi) hi)) &&
    exactHalves l && exactHalves r

/-- A node's span (set of indices it is responsible for) lies within `[a, b)`. -/
def spanIn {V : Type} (t : node V) (a b : Int) : Prop :=
  t ≠ .null → a ≤ t.spanLo ∧ t.spanHi ≤ b

/-- The amended half-containment property: each child's span lies within the
corresponding bisection half of the parent's range. -/
def halvesOK {V : Type} : node V → Prop
  | .null => True
  | .mk _ lo hi l r =>
    (lo ≠ hi → spanIn l lo (midOf lo hi) ∧ spanIn r (midOf lo hi) hi) ∧
    halvesOK l ∧ halvesOK r

/-- A combining function with left identity `0` that is neither associative
nor right-cancelling: nonzero values concatenate as decimal digits. -/
def cf (x y : Int) : Int := if x = 0 then y else x * 10 + y

theorem twoKids_mk {V : Type} (v : V) (lo hi : Int) (l r : node V) :
    twoKids (node.mk v lo hi l r) =
      ((decide (lo = hi) || (!l.isNull && !r.isNull)) && twoKids l && twoKids r) := rfl

theorem halvesOK_mk {V : Type} (v : V) (lo hi : Int) (l r : node V) :
    halvesOK (node.mk v lo hi l r) ↔
      ((lo ≠ hi → spanIn l lo (midOf lo hi) ∧ spanIn r (midOf lo hi) hi) ∧
      halvesOK l ∧ halvesOK r) := Iff.rfl

theorem wf_twoKids {V : Type} {f : V → V → V} {e : V} :
    ∀ t : node V, WF f e t → twoKids t = true := by
  intro t
  induction t with
  | null => intro _; rfl
  | mk v lo hi l r ihl ihr =>
    intro hw
    rw [twoKids_mk]
    rcases eq_or_ne lo hi with heq | hne
    · subst heq
      obtain ⟨hl0, hr0⟩ := wf_leaf_elim hw
      subst hl0
      subst hr0
      simp [twoKids]
    · obtain ⟨_, hln, hrn, _, _, _, hwl, hwr⟩ := wf_internal hw hne
      rw [ihl hwl, ihr hwr, (isNull_eq_false_iff l).mpr hln,
        (isNull_eq_false_iff r).mpr hrn]
      simp

theorem wf_halvesOK {V : Type} {f : V → V → V} {e : V} :
    ∀ t : node V, WF f e t → halvesOK t := by
  intro t
  induction t with
  | null => intro _; trivial
  | mk v lo hi l r ihl ihr =>
    intro hw
    rw [halvesOK_mk]
    rcases eq_or_ne lo hi with heq | hne
    · subst heq
      obtain ⟨hl0, hr0⟩ := wf_leaf_elim hw
      subst hl0
      subst hr0
      exact ⟨fun h => absurd rfl h, trivial, trivial⟩
    · obtain ⟨_, hln, hrn, hcl, hcr, _, hwl, hwr⟩ := wf_internal hw hne
      refine ⟨fun _ => ⟨fun _ => ?_, fun _ => ?_⟩, ihl hwl, ihr hwr⟩
      · have := childOK_span hcl hln
        exact ⟨this.1, this.2.1⟩
      · have := childOK_span hcr hrn
        exact ⟨this.1, this.2.1⟩

theorem mapInsert_mem_self {V : Type} :
    ∀ (m : List (Int × V)) (i : Int) (v : V), (i, v) ∈ mapInsert m i v := by
  intro m
  induction m with
  | nil => intro i v; simp [mapInsert]
  | cons q rest ih =>
    intro i v
    obtain ⟨j, u⟩ := q
    rw [mapInsert_cons]
    by_cases h1 : i < j
    · rw [if_pos h1]
      simp
    · rw [if_neg h1]
      by_cases h2 : i = j
      · rw [if_pos h2]
        simp
      · rw [if_neg h2]
        exact List.mem_cons.mpr (Or.inr (ih i v))

theorem mapInsert_mem_preserve {V : Type} {j0 : Int} {w0 : V} :
    ∀ (m : List (Int × V)) (i : Int) (v : V), (j0, w0) ∈ m → j0 ≠ i →
      (j0, w0) ∈ mapInsert m i v := by
  intro m
  induction m with
  | nil => intro i v h _; simp at h
  | cons q rest ih =>
    intro i v h hne
    obtain ⟨j, u⟩ := q
    rw [mapInsert_cons]
    by_cases h1 : i < j
    · rw [if_pos h1]
      exact List.mem_cons.mpr (Or.inr h)
    · rw [if_neg h1]
      by_cases h2 : i = j
      · rw [if_pos h2]
        rcases List.mem_cons.mp h with h3 | h3
        · rw [Prod.mk.injEq] at h3
          omega
        · exact List.mem_cons.mpr (Or.inr h3)
      · rw [if_neg h2]
        rcases List.mem_cons.mp h with h3 | h3
        · rw [h3]
          simp
        · exact List.mem_cons.mpr (Or.inr (ih i v h3 hne))

theorem mapErase_mem_preserve {V : Type} {j0 : Int} {w0 : V} :
    ∀ (m : List (Int × V)) (i : Int), (j0, w0) ∈ m → j0 ≠ i →
      (j0, w0) ∈ mapErase m i := by
  intro m
  induction m with
  | nil => intro i h _; simp at h
  | cons q rest ih =>
    intro i h hne
    obtain ⟨j, u⟩ := q
    rw [mapErase_cons]
    by_cases h1 : i = j
    · rw [if_pos h1]
      rcases List.mem_cons.mp h with h3 | h3
      · rw [Prod.mk.injEq] at h3
        omega
      · exact h3
    · rw [if_neg h1]
      rcases List.mem_cons.mp h with h3 | h3
      · rw [h3]
        simp
      · exact List.mem_cons.mpr (Or.inr (ih i h3 hne))

theorem mapErase_not_mem {V : Type} :
    ∀ m : List (Int × V), m.Pairwise (fun p q : Int × V => p.1 < q.1) →
      ∀ (i : Int) (w0 : V), (i, w0) ∉ mapErase m i := by
  intro m
  induction m with
  | nil => intro _ i w0 h; simp [mapErase] at h
  | cons q rest ih =>
    intro hp i w0 h
    obtain ⟨j, u⟩ := q
    rw [List.pairwise_cons] at hp
    rw [mapErase_cons] at h
    by_cases hij : i = j
    · rw [if_pos hij] at h
      have h2 := hp.1 (i, w0) h
      dsimp only at h2
      omega
    · rw [if_neg hij] at h
      rcases List.mem_cons.mp h with h1 | h1
      · rw [Prod.mk.injEq] at h1
        exact hij h1.1
      · exact ih hp.2 i w0 h1

theorem specFrom_untouched {V : Type} (i : Int) (w0 : V) :
    ∀ (post : List (Op V)) (m : List (Int × V)),
      post.all (fun op => ! opTouches i op) = true → (i, w0) ∈ m →
      (i, w0) ∈ specFrom m post := by
  intro post
  induction post with
  | nil => intro m _ h; exact h
  | cons op rest ih =>
    intro m hall hm
    rw [List.all_cons, Bool.and_eq_true] at hall
    obtain ⟨hop, hrest⟩ := hall
    cases op with
    | ins j v =>
      rw [specFrom_cons_ins]
      have hne : i ≠ j := by
        simp [opTouches] at hop
        omega
      exact ih _ hrest (mapInsert_mem_preserve m j v hm hne)
    | del j =>
      rw [specFrom_cons_del]
      have hne : i ≠ j := by
        simp [opTouches] at hop
        omega
      exact ih _ hrest (mapErase_mem_preserve m j hm hne)

theorem state_ext {V : Type} {a b : state V} (h1 : a.root = b.root)
    (h2 : a.rootParentNull = b.rootParentNull) : a = b := by
  obtain ⟨r1, f1⟩ := a
  obtain ⟨r2, f2⟩ := b
  dsimp only at h1 h2
  rw [h1, h2]

end dst

namespace dst

/-- Claim C1, counterexample: with only the claimed left-identity assumption
`combine(identity, x) == x` (the functor `cf` satisfies it), on the valid
insert-only sequence `(0,1); (2,2); (3,3)` the query `query(0, 3)` returns
33, which is neither the ascending fold of the present values (123) nor the
fold padded with the identity at the absent index 1 (1023): `_query`
combines in tree shape, not in the claimed flat ascending order, once the
functor is not associative. -/
theorem C1_left_identity_insufficient :
    LeftId cf 0 ∧
    validFromB [] [Op.ins (0 : Int) 1, Op.ins 2 2, Op.ins 3 3] = true ∧
    state.query cf 0 (runOps cf 0 [Op.ins 0 1, Op.ins 2 2, Op.ins 3 3]) 0 3 = 33 ∧
    presentFold cf 0 (specOf [Op.ins (0 : Int) 1, Op.ins 2 2, Op.ins 3 3]) 0 3 = 123 ∧
    fold1 cf 0 [1, 0, 2, 3] = 1023 :=
  ⟨fun x => if_pos rfl, by decide, by decide, by decide, by decide⟩

/-- Claim C1, amended: on every reachable state (valid operation sequence),
for an associative combining function whose default value is a two-sided
identity, `query(start, end)` returns the fold, in ascending index order,
of the values stored at the present indices within `[start, end]`. -/
theorem C1_query_aggregates {V : Type} (f : V → V → V) (e : V)
    (hA : Assoc f) (hL : LeftId f e) (hR : RightId f e)
    (ops : List (Op V)) (hv : validFromB [] ops = true) (a b : Int) :
    state.query f e (runOps f e ops) a b = presentFold f e (specOf ops) a b := by
  rw [← runOps_toList f e ops hv]
  exact queryGo_presentFold hA hL hR _ (runOps_wf f e ops) a b

/-- Witness for C1's amended theorem at integer sum. -/
theorem C1_query_aggregates_witness :
    Assoc (fun x y : Int => x + y) ∧ LeftId (fun x y : Int => x + y) 0 ∧
    RightId (fun x y : Int => x + y) 0 ∧
    validFromB [] [Op.ins (5 : Int) (10 : Int)] = true ∧
    state.query (fun x y : Int => x + y) 0
        (runOps (fun x y : Int => x + y) 0 [Op.ins 5 10]) 5 5 =
      presentFold (fun x y : Int => x + y) 0 (specOf [Op.ins (5 : Int) 10]) 5 5 :=
  ⟨fun a b c => Int.add_assoc a b c, fun x => Int.zero_add x, fun x => Int.add_zero x,
    by decide,
    C1_query_aggregates _ _ (fun a b c => Int.add_assoc a b c)
      (fun x => Int.zero_add x) (fun x => Int.add_zero x) _ (by decide) 5 5⟩

/-- Claim C2: the spec's concrete sum scenario: after inserting (5,10),
(1,3), (8,7), `query(1,8) = 20` and `query(2,7) = 10`; after `erase(5)`,
`query(1,8) = 10`. -/
theorem C2_sum_scenario :
    state.query (fun x y : Int => x + y) 0
      (runOps (fun x y : Int => x + y) 0 [Op.ins 5 10, Op.ins 1 3, Op.ins 8 7])
      1 8 = 20 ∧
    state.query (fun x y : Int => x + y) 0
      (runOps (fun x y : Int => x + y) 0 [Op.ins 5 10, Op.ins 1 3, Op.ins 8 7])
      2 7 = 10 ∧
    state.query (fun x y : Int => x + y) 0
      (runOps (fun x y : Int => x + y) 0
        [Op.ins 5 10, Op.ins 1 3, Op.ins 8 7, Op.del 5]) 1 8 = 10 := by
  decide

/-- Claim C3: in every reachable tree state (any sequence of public
operations, even erases at absent indices) every node with a non-point
range has two non-null children. -/
theorem C3_internal_two_children {V : Type} (f : V → V → V) (e : V)
    (ops : List (Op V)) : twoKids (runOps f e ops).root = true :=
  wf_twoKids _ (runOps_wf f e ops)

/-- Claim C4, counterexample: after the valid inserts `(0,_); (4,_); (1,_)`
the root has range `(0, 8)` but its left child stores range `(0, 2)`, not
the exact half `(0, 4)`: `_extend`'s shrink loop stops at the tightest
dyadic block, so child ranges are contained in — not equal to — the
parent's halves. -/
theorem C4_not_exact_halves :
    validFromB [] [Op.ins (0 : Int) 1, Op.ins 4 1, Op.ins 1 1] = true ∧
    exactHalves (runOps (fun x y : Int => x + y) 0
      [Op.ins 0 1, Op.ins 4 1, Op.ins 1 1]).root = false := by
  decide

/-- Claim C4, amended: in every reachable tree state, every child's span is
contained in the corresponding bisection half `[lo, mid)` / `[mid, hi)` of
its parent's range. -/
theorem C4_children_within_halves {V : Type} (f : V → V → V) (e : V)
    (ops : List (Op V)) : halvesOK (runOps f e ops).root :=
  wf_halvesOK _ (runOps_wf f e ops)

/-- Claim C5, counterexample: after `insert(5, 10)`, the operation
`erase(3)` — which is neither an erase of 5 nor an insert at 5 — routes to
the leaf holding index 5 and deletes it, so `query(5, 5)` returns 0, not
10. -/
theorem C5_erase_other_kills_value :
    (([Op.del 3] : List (Op Int)).all (fun op => ! opTouches 5 op)) = true ∧
    state.query (fun x y : Int => x + y) 0
      (runOps (fun x y : Int => x + y) 0 ([Op.ins (5 : Int) 10] ++ [Op.del 3]))
      5 5 = 0 := by
  decide

/-- Claim C5, amended: when every erase in the whole sequence hits a present
index, an `insert(i, v)` followed by operations that never insert at or
erase `i` leaves `query(i, i) = v`. -/
theorem C5_insert_round_trip {V : Type} (f : V → V → V) (e : V)
    (pre post : List (Op V)) (i : Int) (v : V)
    (hv : validFromB [] (pre ++ Op.ins i v :: post) = true)
    (hpost : post.all (fun op => ! opTouches i op) = true) :
    state.query f e (runOps f e (pre ++ Op.ins i v :: post)) i i = v := by
  have hwf := runOps_wf f e (pre ++ Op.ins i v :: post)
  have htl := runOps_toList f e _ hv
  have hmem : (i, v) ∈ (runOps f e (pre ++ Op.ins i v :: post)).root.toList := by
    rw [htl, specOf_eq, specFrom_append, specFrom_cons_ins]
    exact specFrom_untouched i v post _ hpost (mapInsert_mem_self _ i v)
  exact query_point_present i v _ hwf hmem

/-- Witness for C5's amended theorem. -/
theorem C5_insert_round_trip_witness :
    validFromB [] ([] ++ Op.ins (5 : Int) (10 : Int) :: []) = true ∧
    ([] : List (Op Int)).all (fun op => ! opTouches 5 op) = true ∧
    state.query (fun x y : Int => x + y) 0
      (runOps (fun x y : Int => x + y) 0 ([] ++ Op.ins 5 10 :: [])) 5 5 = 10 :=
  ⟨by decide, by decide, C5_insert_round_trip _ _ [] [] 5 10 (by decide) (by decide)⟩

/-- Claim C6: erasing a present index `i` (the sequence is valid, so the
final erase hits a present index) makes the point query `query(i, i)`
return the default value. -/
theorem C6_erase_point_identity {V : Type} (f : V → V → V) (e : V)
    (ops : List (Op V)) (i : Int)
    (hv : validFromB [] (ops ++ [Op.del i]) = true) :
    state.query f e (runOps f e (ops ++ [Op.del i])) i i = e := by
  have hwf := runOps_wf f e (ops ++ [Op.del i])
  have htl := runOps_toList f e _ hv
  have hsorted : (specFrom [] ops).Pairwise (fun p q : Int × V => p.1 < q.1) := by
    have hv1 := validFromB_append_left ops [Op.del i] [] hv
    have h2 := runOps_toList f e ops hv1
    rw [specOf_eq] at h2
    rw [← h2]
    exact wf_toList_sorted (runOps_wf f e ops)
  have habs : ∀ w0, (i, w0) ∉ (runOps f e (ops ++ [Op.del i])).root.toList := by
    intro w0 hmem
    rw [htl, specOf_eq, specFrom_append, specFrom_cons_del] at hmem
    exact mapErase_not_mem _ hsorted i w0 hmem
  exact query_point_absent i _ hwf habs

/-- Witness for C6's theorem. -/
theorem C6_erase_point_identity_witness :
    validFromB [] ([Op.ins (5 : Int) (10 : Int)] ++ [Op.del 5]) = true ∧
    state.query (fun x y : Int => x + y) 0
      (runOps (fun x y : Int => x + y) 0 ([Op.ins 5 10] ++ [Op.del 5])) 5 5 = 0 :=
  ⟨by decide, C6_erase_point_identity _ _ [Op.ins 5 10] 5 (by decide)⟩

/-- Claim C7: from every reachable starting state, `insert(i, v1)` followed
by `insert(i, v2)` yields exactly the same tree state — node structure,
ranges, cached values and root-parent flag — as the single `insert(i, v2)`. -/
theorem C7_overwrite {V : Type} (f : V → V → V) (e : V) (ops : List (Op V))
    (i : Int) (v1 v2 : V) :
    state.insert f e (state.insert f e (runOps f e ops) i v1) i v2 =
      state.insert f e (runOps f e ops) i v2 := by
  have hwf := runOps_wf f e ops
  obtain ⟨t1, h1, _, ht1n, _, _, _, _⟩ :=
    insertGo_spec f e ((runOps f e ops).root.height + 2) (runOps f e ops).root i v1
      none hwf trivial trivial (le_refl _)
  have hroot1 : (state.insert f e (runOps f e ops) i v1).root = t1 := by
    show insertRoot f e (runOps f e ops).root i v1 = t1
    unfold insertRoot
    rw [h1]
    rfl
  have heq := insertGo_twice f e ((runOps f e ops).root.height + 2)
    (runOps f e ops).root i v1 v2 none (t1.height + 2) hwf trivial trivial
    (le_refl _) t1 h1 (le_refl _)
  obtain ⟨t2, h2, _, _, _, _, _, _⟩ :=
    insertGo_spec f e ((runOps f e ops).root.height + 2) (runOps f e ops).root i v2
      none hwf trivial trivial (le_refl _)
  refine state_ext ?_ ?_
  · show insertRoot f e (state.insert f e (runOps f e ops) i v1).root i v2 =
      insertRoot f e (runOps f e ops).root i v2
    rw [hroot1]
    unfold insertRoot
    rw [heq, h2]
    rfl
  · show (if (state.insert f e (runOps f e ops) i v1).root.isNull then true
      else (state.insert f e (runOps f e ops) i v1).rootParentNull) = _
    rw [hroot1, (isNull_eq_false_iff t1).mpr ht1n, if_neg (by simp)]
    rfl

/-- Claim C8: erase performs no membership validation: on a tree holding
only the leaf at index 5, `erase(3)` deletes that unrelated leaf and
empties the tree (`query(5,5)` then returns 0), while `erase(3)` on an
empty tree is a silent no-op — never a validated rejection. -/
theorem C8_erase_unvalidated :
    (runOps (fun x y : Int => x + y) 0 [Op.ins 5 10, Op.del 3]).root = node.null ∧
    state.query (fun x y : Int => x + y) 0
      (runOps (fun x y : Int => x + y) 0 [Op.ins 5 10, Op.del 3]) 5 5 = 0 ∧
    runOps (fun x y : Int => x + y) 0 [Op.del 3] =
      runOps (fun x y : Int => x + y) 0 [] := by
  decide

/-- Claim C9: when insert meets a root (parentless) node whose range
excludes the new index — and the single-point overwrite case does not apply
— the extension computes a power-of-two-length range that contains the new
index and the old root's span, strictly larger than the old range. -/
theorem C9_root_extension {V : Type} (f : V → V → V) (e : V) (ops : List (Op V))
    (w : V) (lo hi : Int) (l r : node V)
    (hroot : (runOps f e ops).root = node.mk w lo hi l r)
    (i : Int) (hout : i < lo ∨ i ≥ hi) (hni : ¬(lo = hi ∧ lo = i)) :
    IsPow2 ((extendRange none lo hi i).2 - (extendRange none lo hi i).1) ∧
    (extendRange none lo hi i).1 ≤ lo ∧ sHi lo hi ≤ (extendRange none lo hi i).2 ∧
    (extendRange none lo hi i).1 ≤ i ∧ i < (extendRange none lo hi i).2 ∧
    (extendRange none lo hi i).2 - (extendRange none lo hi i).1 > hi - lo := by
  have hwf := runOps_wf f e ops
  rw [hroot] at hwf
  have hshape : lo = hi ∨ (lo < hi ∧ IsPow2 (hi - lo)) := by
    rcases eq_or_ne lo hi with h | h
    · exact Or.inl h
    · exact Or.inr ⟨wf_lo_lt_hi hwf h, (wf_internal hwf h).1⟩
  obtain ⟨g1, g2, g3, g4, g5, g6, _, _⟩ :=
    growRoot_spec hshape hout (fun hc => hni ⟨hc.1, hc.2.symm⟩)
  exact ⟨g1, g2, g3, g4, g5, g6⟩

/-- Witness for C9's theorem: extending the single-leaf root `(0,0)` to
reach index 6. -/
theorem C9_root_extension_witness :
    (runOps (fun x y : Int => x + y) 0 [Op.ins (0 : Int) 1]).root =
      node.mk 1 0 0 node.null node.null ∧
    (IsPow2 ((extendRange none (0 : Int) 0 6).2 - (extendRange none (0 : Int) 0 6).1) ∧
      (extendRange none (0 : Int) 0 6).1 ≤ 0 ∧
      sHi (0 : Int) 0 ≤ (extendRange none (0 : Int) 0 6).2 ∧
      (extendRange none (0 : Int) 0 6).1 ≤ 6 ∧
      (6 : Int) < (extendRange none (0 : Int) 0 6).2 ∧
      (extendRange none (0 : Int) 0 6).2 - (extendRange none (0 : Int) 0 6).1
        > 0 - 0) :=
  ⟨by decide,
    C9_root_extension (fun x y : Int => x + y) 0 [Op.ins 0 1] 1 0 0 node.null
      node.null (by decide) 6 (by decide) (by decide)⟩

/-- Claim C10 (code bug): on the fully valid sequence `insert(0,·);
insert(1,·); erase(0)` the erase splices the old root out and promotes its
surviving child to `_root` without resetting that child's parent pointer
(`_erase` only rewrites `child->parent()` in its non-root branch), so the
new root's parent pointer still addresses the freed old root: the state is
nonempty yet its root-parent-is-null flag is false. -/
theorem C10_root_parent_dangling :
    validFromB [] [Op.ins (0 : Int) 1, Op.ins 1 2, Op.del 0] = true ∧
    (runOps (fun x y : Int => x + y) 0
      [Op.ins 0 1, Op.ins 1 2, Op.del 0]).root ≠ node.null ∧
    (runOps (fun x y : Int => x + y) 0
      [Op.ins 0 1, Op.ins 1 2, Op.del 0]).rootParentNull = false := by
  decide

end dst
